import Mathlib

/-!
Verification of the `calc` repository: a tokenizer, recursive-descent parser,
evaluator and canonical renderer for integer arithmetic expressions.

The development shallowly embeds the two Rust source files:
  * `src/calc.rs`       — embedded in the root namespace (`Calc` semantics);
  * `src/src/main.rs`   — embedded in namespace `MainRs`.

Modelling conventions:
  * Rust `i32` values are modelled as `Int`.  The spec leaves overflow
    behaviour unspecified ("unbounded-precision in the reference"), and no
    claim exercises overflow, so arithmetic is exact.  Rust `/` on `i32`
    truncates toward zero, which is `Int.tdiv`.
  * Every Rust `panic!` / `expect` / `unwrap` / out-of-bounds index becomes a
    distinct constructor of the error type `Err`, so the embedding records
    which failure fired (panic message text is not modelled).
  * The lazy `Iterator` for `TokenParser` is embedded by running the iterator
    eagerly to a list of tokens plus an optional terminal error
    (`tokensFrom`).  The token stream is a pure function of the input, and the
    parser only observes a prefix of it, so pulling lazily and pulling from
    the precomputed stream are observably identical: the terminal error is
    raised exactly when the parser pulls past the last good token.
  * Rust loops / recursion are embedded with an explicit fuel parameter so
    that every definition is structurally recursive (hence executable and
    reducible by `decide`/`rfl`).  The fuel supplied at the entry points is
    proved sufficient (see the fuel-sufficiency lemmas towards the end), so
    the `outOfFuel` error never occurs.
-/

/-- `Token` from `src/calc.rs` (identical declaration in `src/src/main.rs`):
`ADD, SUB, MUL, DIV, NUM(i32), LPR, RPR`. -/
inductive Token : Type
  | ADD | SUB | MUL | DIV
  | NUM (v : Int)
  | LPR | RPR
  deriving Repr, DecidableEq

/-- The AST node family of `src/calc.rs` (`NumNode`, `NegNode`, `ParNode`,
`MulNode`, `DivNode`, `AddNode`, `SubNode`).  The Rust code uses trait
objects (`Box<dyn ASTNode>`); the closed set of variants is a sum type. -/
inductive ASTNode : Type
  | NumNode (v : Int)
  | NegNode (c : ASTNode)
  | ParNode (c : ASTNode)
  | MulNode (l r : ASTNode)
  | DivNode (l r : ASTNode)
  | AddNode (l r : ASTNode)
  | SubNode (l r : ASTNode)
  deriving Repr, DecidableEq

/-- Failure modes.  Each constructor corresponds to one Rust panic site
(`src/calc.rs` line numbers):
  * `invalidChar c i`  — tokenizer `panic!("Invalid token ...")` (l. 113);
  * `indexOOB`         — `self.input[..]` out-of-bounds panic (l. 83, 95, 100);
  * `unwrapNone`       — `to_digit(10).unwrap()` on a non-digit (l. 96);
  * `trailingInput t`  — `evaluate` `panic!("... Extra token ...")` (l. 124);
  * `emptyFactor`      — `parse_f` `panic!("empty")` (l. 171);
  * `nothingAfterNeg`  — `expect("... Nothing follows NEG!")` (l. 177);
  * `nonNumAfterNeg t` — `panic!("... Non-num follows NEG ...")` (l. 181);
  * `openParen`        — `panic!("... Open parenthesis.")` (l. 189);
  * `illegalFactor t`  — `panic!("... Illegal factor ...")` (l. 193);
  * `divisionByZero`   — the `i32` division-by-zero panic in `DivNode::eval`;
  * `outOfFuel`        — artefact of the fuel embedding, proved unreachable. -/
inductive Err : Type
  | invalidChar (c : Char) (idx : Nat)
  | indexOOB
  | unwrapNone
  | trailingInput (t : Token)
  | emptyFactor
  | nothingAfterNeg
  | nonNumAfterNeg (t : Token)
  | openParen
  | illegalFactor (t : Token)
  | divisionByZero
  | outOfFuel
  deriving Repr, DecidableEq

/-- Numeric value of a digit character, as in `to_digit(10) as i32`. -/
def dval (c : Char) : Int := ((c.toNat - 48 : Nat) : Int)

/-- `TokenParser::next_char_idx` (`src/calc.rs` l. 64-76): starting from
index `i`, scan strictly ahead for the next non-whitespace character.
`gas` bounds the scan; `gas = input.length` always suffices. -/
def nextIdxGo (input : List Char) : Nat → Nat → Option Nat
  | 0, _ => none
  | gas + 1, i =>
    if h : i + 1 < input.length then
      if (input.get ⟨i + 1, h⟩).isWhitespace then nextIdxGo input gas (i + 1)
      else some (i + 1)
    else none

/-- `TokenParser::next_char_idx` with its (sufficient) fuel supplied. -/
def nextIdx (input : List Char) (i : Nat) : Option Nat :=
  nextIdxGo input input.length i

/-- The digit-accumulation loop of `Iterator::next` (`src/calc.rs` l. 93-110):
`accum = accum * 10 + digit`, then look ahead with `next_char_idx`; consume
the lookahead while it is itself a digit.  Returns the accumulated value and
the index of the last consumed digit. -/
def lexNumGo (input : List Char) : Nat → Nat → Int → Except Err (Int × Nat)
  | 0, _, _ => .error .outOfFuel
  | gas + 1, i, a =>
    match input.get? i with
    | none => .error .indexOOB
    | some c =>
      if c.isDigit then
        let a' := a * 10 + dval c
        match nextIdx input i with
        | some j =>
          match input.get? j with
          | none => .error .indexOOB
          | some c' => if c'.isDigit then lexNumGo input gas j a' else .ok (a', i)
        | none => .ok (a', i)
      else .error .unwrapNone

/-- One run of the token iterator (`Iterator::next`, `src/calc.rs` l. 82-117),
iterated to exhaustion from cursor position `i`.  Produces the list of tokens
the iterator yields, paired with the error of the panic that ends the stream,
if any.  `gas` bounds the number of tokens; `input.length + 1` suffices. -/
def tfGo (input : List Char) : Nat → Option Nat → List Token × Option Err
  | _, none => ([], none)
  | 0, some _ => ([], some .outOfFuel)
  | gas + 1, some i =>
    if h : i < input.length then
      let c := input.get ⟨i, h⟩
      if c = '+' then
        let r := tfGo input gas (nextIdx input i); (.ADD :: r.1, r.2)
      else if c = '-' then
        let r := tfGo input gas (nextIdx input i); (.SUB :: r.1, r.2)
      else if c = '*' then
        let r := tfGo input gas (nextIdx input i); (.MUL :: r.1, r.2)
      else if c = '/' then
        let r := tfGo input gas (nextIdx input i); (.DIV :: r.1, r.2)
      else if c = '(' then
        let r := tfGo input gas (nextIdx input i); (.LPR :: r.1, r.2)
      else if c = ')' then
        let r := tfGo input gas (nextIdx input i); (.RPR :: r.1, r.2)
      else if c.isDigit then
        match lexNumGo input input.length i 0 with
        | .error e => ([], some e)
        | .ok (v, j) =>
          let r := tfGo input gas (nextIdx input j); (.NUM v :: r.1, r.2)
      else ([], some (.invalidChar c i))
    else ([], some .indexOOB)

/-- The full token stream of `TokenParser::new(input)` (cursor starts at
`Some(0)`, even on empty or whitespace-leading input — the source quirk). -/
def tokensFrom (input : List Char) : List Token × Option Err :=
  tfGo input (input.length + 1) (some 0)

/-- A token source as the parser sees it: the not-yet-consumed tokens plus
the terminal error (if the iterator ends in a panic rather than `None`). -/
abbrev TS : Type := List Token × Option Err

/-- One pull on the token source (`p.next()`): yields the next token, ends
cleanly, or raises the deferred tokenizer panic. -/
def pull : TS → Except Err (Option (Token × TS))
  | ([], none) => .ok none
  | ([], some e) => .error e
  | (t :: ts, e) => .ok (some (t, (ts, e)))

mutual

/-- `parse_f` (`src/calc.rs` l. 170-196): factor = `NUM` | `-` `NUM` |
`(` expression `)`.  Returns the node, the first unconsumed token
(the Rust functions return `(Box<dyn ASTNode>, Option<Token>)` and leave the
advanced iterator in `p`), and the rest of the token source. -/
def parse_f : Nat → TS → Except Err (ASTNode × Option Token × TS)
  | 0, _ => .error .outOfFuel
  | fuel + 1, ts =>
    match pull ts with
    | .error e => .error e
    | .ok none => .error .emptyFactor
    | .ok (some (t0, ts1)) =>
      match t0 with
      | .NUM v =>
        match pull ts1 with
        | .error e => .error e
        | .ok none => .ok (.NumNode v, none, ts1)
        | .ok (some (t, ts2)) => .ok (.NumNode v, some t, ts2)
      | .SUB =>
        match pull ts1 with
        | .error e => .error e
        | .ok none => .error .nothingAfterNeg
        | .ok (some (t1, ts2)) =>
          match t1 with
          | .NUM v =>
            match pull ts2 with
            | .error e => .error e
            | .ok none => .ok (.NegNode (.NumNode v), none, ts2)
            | .ok (some (t, ts3)) => .ok (.NegNode (.NumNode v), some t, ts3)
          | _ => .error (.nonNumAfterNeg t1)
      | .LPR =>
        match parse_e fuel ts1 with
        | .error e => .error e
        | .ok (expr, some .RPR, ts2) =>
          match pull ts2 with
          | .error e => .error e
          | .ok none => .ok (.ParNode expr, none, ts2)
          | .ok (some (t, ts3)) => .ok (.ParNode expr, some t, ts3)
        | .ok (_, _, _) => .error .openParen
      | t => .error (.illegalFactor t)

/-- The `while tv == MUL || tv == DIV` loop of `parse_t`
(`src/calc.rs` l. 154-165). -/
def parse_t_loop : Nat → ASTNode → Token → TS → Except Err (ASTNode × Option Token × TS)
  | 0, _, _, _ => .error .outOfFuel
  | fuel + 1, n0, tv, ts =>
    match tv with
    | .MUL | .DIV =>
      match parse_f fuel ts with
      | .error e => .error e
      | .ok (n1, tn, ts1) =>
        let n0' := if tv = .MUL then ASTNode.MulNode n0 n1 else ASTNode.DivNode n0 n1
        match tn with
        | none => .ok (n0', none, ts1)
        | some tv' => parse_t_loop fuel n0' tv' ts1
    | _ => .ok (n0, some tv, ts)

/-- `parse_t` (`src/calc.rs` l. 150-167): term = factor (`*`|`/` factor)*. -/
def parse_t : Nat → TS → Except Err (ASTNode × Option Token × TS)
  | 0, _ => .error .outOfFuel
  | fuel + 1, ts =>
    match parse_f fuel ts with
    | .error e => .error e
    | .ok (n0, none, ts1) => .ok (n0, none, ts1)
    | .ok (n0, some tv, ts1) => parse_t_loop fuel n0 tv ts1

/-- The `while tv == ADD || tv == SUB` loop of `parse_e`
(`src/calc.rs` l. 134-145). -/
def parse_e_loop : Nat → ASTNode → Token → TS → Except Err (ASTNode × Option Token × TS)
  | 0, _, _, _ => .error .outOfFuel
  | fuel + 1, n0, tv, ts =>
    match tv with
    | .ADD | .SUB =>
      match parse_t fuel ts with
      | .error e => .error e
      | .ok (n1, tn, ts1) =>
        let n0' := if tv = .ADD then ASTNode.AddNode n0 n1 else ASTNode.SubNode n0 n1
        match tn with
        | none => .ok (n0', none, ts1)
        | some tv' => parse_e_loop fuel n0' tv' ts1
    | _ => .ok (n0, some tv, ts)

/-- `parse_e` (`src/calc.rs` l. 130-147): expression = term (`+`|`-` term)*. -/
def parse_e : Nat → TS → Except Err (ASTNode × Option Token × TS)
  | 0, _ => .error .outOfFuel
  | fuel + 1, ts =>
    match parse_t fuel ts with
    | .error e => .error e
    | .ok (n0, none, ts1) => .ok (n0, none, ts1)
    | .ok (n0, some tv, ts1) => parse_e_loop fuel n0 tv ts1

end

/-- Fuel supplied to the parser by the entry point: proved sufficient below
(`parse_no_fuel_err`), so `evaluate` never reports `outOfFuel`. -/
def parseFuel (ts : TS) : Nat := 4 * ts.1.length + 4

/-- `evaluate` (`src/calc.rs` l. 121-127): parse one expression from the
token stream of `input`; any pending token afterwards is `TrailingInput`. -/
def evaluate (input : List Char) : Except Err ASTNode :=
  let ts := tokensFrom input
  match parse_e (parseFuel ts) ts with
  | .error e => .error e
  | .ok (n, none, _) => .ok n
  | .ok (_, some t, _) => .error (.trailingInput t)

/-- `ASTNode::eval` (`src/calc.rs` l. 15-42).  `DivNode` divides with the
`i32` `/` operator: truncation toward zero (`Int.tdiv`), panicking on a zero
divisor. -/
def evalNode : ASTNode → Except Err Int
  | .NumNode v => .ok v
  | .NegNode c => do let x ← evalNode c; return (-x)
  | .ParNode c => evalNode c
  | .MulNode l r => do let a ← evalNode l; let b ← evalNode r; return (a * b)
  | .DivNode l r => do
      let a ← evalNode l
      let b ← evalNode r
      if b = 0 then .error .divisionByZero else return (a.tdiv b)
  | .AddNode l r => do let a ← evalNode l; let b ← evalNode r; return (a + b)
  | .SubNode l r => do let a ← evalNode l; let b ← evalNode r; return (a - b)

/-- Decimal digit character for `n < 10`. -/
def digitChar (n : Nat) : Char := Char.ofNat (48 + n)

/-- Big-endian decimal digits of a natural number (the rendering used by
Rust `format!("{}", v)` for non-negative `v`).  `gas = n + 1` suffices. -/
def ndGo : Nat → Nat → List Char
  | 0, _ => []
  | gas + 1, n => if n < 10 then [digitChar n] else ndGo gas (n / 10) ++ [digitChar (n % 10)]

/-- Decimal digit string of a natural number. -/
def natDigits (n : Nat) : List Char := ndGo (n + 1) n

/-- `format!("{}", v)` for an `i32` value. -/
def intRepr (v : Int) : List Char :=
  if v < 0 then '-' :: natDigits (-v).toNat else natDigits v.toNat

/-- `ASTNode::repr` (`src/calc.rs` l. 15-42): `NumNode` prints its value,
`NegNode` prints `<-c>`, `ParNode` prints `(c)`, binary nodes print
`<l op r>`. -/
def reprNode : ASTNode → List Char
  | .NumNode v => intRepr v
  | .NegNode c => '<' :: '-' :: (reprNode c ++ ['>'])
  | .ParNode c => '(' :: (reprNode c ++ [')'])
  | .MulNode l r => '<' :: (reprNode l ++ '*' :: (reprNode r ++ ['>']))
  | .DivNode l r => '<' :: (reprNode l ++ '/' :: (reprNode r ++ ['>']))
  | .AddNode l r => '<' :: (reprNode l ++ '+' :: (reprNode r ++ ['>']))
  | .SubNode l r => '<' :: (reprNode l ++ '-' :: (reprNode r ++ ['>']))

/-- The full pipeline as the spec's core entry point:
`evaluate(input) -> (value, rendered)` or a failure. -/
def runFull (input : List Char) : Except Err (Int × List Char) :=
  match evaluate input with
  | .error e => .error e
  | .ok n =>
    match evalNode n with
    | .error e => .error e
    | .ok v => .ok (v, reprNode n)

/-- Just the numeric value of the pipeline. -/
def calcValue (input : List Char) : Except Err Int :=
  match runFull input with
  | .error e => .error e
  | .ok (v, _) => .ok v

instance {ε α : Type} [DecidableEq ε] [DecidableEq α] : DecidableEq (Except ε α) := fun a b =>
  match a, b with
  | .error e, .error f =>
    if h : e = f then .isTrue (by rw [h]) else .isFalse (by intro hh; cases hh; exact h rfl)
  | .error _, .ok _ => .isFalse (by intro hh; cases hh)
  | .ok _, .error _ => .isFalse (by intro hh; cases hh)
  | .ok x, .ok y =>
    if h : x = y then .isTrue (by rw [h]) else .isFalse (by intro hh; cases hh; exact h rfl)

/-- The spec's `UnexpectedEndOfInput` class: a grammar rule needed a token
but the stream was exhausted.  Two panic sites of `src/calc.rs` qualify:
`parse_f`'s `panic!("empty")` and the `expect` after unary minus. -/
def isUnexpectedEndOfInput (e : Err) : Prop :=
  e = .emptyFactor ∨ e = .nothingAfterNeg

/-- The spec's `UnexpectedToken` class: a grammar rule received a token
incompatible with its production (non-number after unary minus, or an
illegal factor token). -/
def isUnexpectedTokenErr (e : Err) : Prop :=
  (∃ t, e = .nonNumAfterNeg t) ∨ (∃ t, e = .illegalFactor t)

/-- Value of a big-endian digit string (`value = value * 10 + digit`). -/
def digitsVal (ds : List Char) : Nat :=
  ds.foldl (fun a c => a * 10 + (c.toNat - 48)) 0

/-- A digit string without redundant leading zeros. -/
def noLeadingZero (ds : List Char) : Prop :=
  ds = ['0'] ∨ ds.head? ≠ some '0'

/-- Characters of the expression alphabet other than whitespace; the
rendered form of a parsed tree (with `<`/`>` mapped to parentheses) uses
only these. -/
def goodChar (c : Char) : Bool :=
  c.isDigit || c = '+' || c = '-' || c = '*' || c = '/' || c = '(' || c = ')'

/-- Reference digit munch on a suffix: accumulate leading digits, return the
value and the rest.  Used to characterise the tokenizer on whitespace-free
inputs. -/
def lexNumS : List Char → Int → Int × List Char
  | [], a => (a, [])
  | c :: cs, a => if c.isDigit then lexNumS cs (a * 10 + dval c) else (a, c :: cs)

/-- Reference tokenization of a whitespace-free string over the expression
alphabet; `tokensFrom` agrees with it on such inputs
(`tokensFrom_eq_lexToks`). -/
def lexToks : List Char → List Token
  | [] => []
  | c :: cs =>
    if c = '+' then .ADD :: lexToks cs
    else if c = '-' then .SUB :: lexToks cs
    else if c = '*' then .MUL :: lexToks cs
    else if c = '/' then .DIV :: lexToks cs
    else if c = '(' then .LPR :: lexToks cs
    else if c = ')' then .RPR :: lexToks cs
    else if c.isDigit then
      let p := lexNumS cs (dval c)
      .NUM p.1 :: lexToks p.2
    else []
  termination_by l => l.length
  decreasing_by
  all_goals simp
  all_goals
    have key : ∀ (l : List Char) (a : Int), (lexNumS l a).2.length ≤ l.length := by
      intro l
      induction l with
      | nil => intro _; simp [lexNumS]
      | cons x xs ih =>
        intro a
        by_cases hx : x.isDigit
        · simpa [lexNumS, hx] using Nat.le_succ_of_le (ih (a * 10 + dval x))
        · simp [lexNumS, hx]
    exact Nat.lt_succ_of_le (key cs (dval c))

/-- Shapes of trees the parser can produce: literals hold non-negative
values (the tokenizer only produces non-negative `NUM`s) and negation is
applied only to a literal (`parse_f` wraps exactly `NegNode(NumNode _)`). -/
inductive WFTree : ASTNode → Prop
  | num (v : Int) : 0 ≤ v → WFTree (.NumNode v)
  | neg (v : Int) : 0 ≤ v → WFTree (.NegNode (.NumNode v))
  | par {c : ASTNode} : WFTree c → WFTree (.ParNode c)
  | mul {l r : ASTNode} : WFTree l → WFTree r → WFTree (.MulNode l r)
  | div {l r : ASTNode} : WFTree l → WFTree r → WFTree (.DivNode l r)
  | add {l r : ASTNode} : WFTree l → WFTree r → WFTree (.AddNode l r)
  | sub {l r : ASTNode} : WFTree l → WFTree r → WFTree (.SubNode l r)

/-- Token sequence of the rendered form of a tree, with the rendering's
angle brackets read as parentheses. -/
def toks : ASTNode → List Token
  | .NumNode v => [.NUM v]
  | .NegNode c => .LPR :: .SUB :: (toks c ++ [.RPR])
  | .ParNode c => .LPR :: (toks c ++ [.RPR])
  | .MulNode l r => .LPR :: (toks l ++ .MUL :: (toks r ++ [.RPR]))
  | .DivNode l r => .LPR :: (toks l ++ .DIV :: (toks r ++ [.RPR]))
  | .AddNode l r => .LPR :: (toks l ++ .ADD :: (toks r ++ [.RPR]))
  | .SubNode l r => .LPR :: (toks l ++ .SUB :: (toks r ++ [.RPR]))

/-- The tree obtained by re-parsing the rendered form of a tree: every
operator application gains one explicit `ParNode` from its brackets. -/
def rt : ASTNode → ASTNode
  | .NumNode v => .NumNode v
  | .NegNode c => .ParNode (.NegNode c)
  | .ParNode c => .ParNode (rt c)
  | .MulNode l r => .ParNode (.MulNode (rt l) (rt r))
  | .DivNode l r => .ParNode (.DivNode (rt l) (rt r))
  | .AddNode l r => .ParNode (.AddNode (rt l) (rt r))
  | .SubNode l r => .ParNode (.SubNode (rt l) (rt r))

/-- Read the rendering's angle brackets as ordinary parentheses. -/
def angleToParen (c : Char) : Char :=
  if c = '<' then '(' else if c = '>' then ')' else c

/-- All number tokens in a list carry non-negative values. -/
def numsNonneg (l : List Token) : Prop :=
  ∀ v : Int, Token.NUM v ∈ l → 0 ≤ v

namespace MainRs

/-- `TokenParser::lookahead_idx` (`src/src/main.rs` l. 22-34). -/
def lookaheadGo (input : List Char) : Nat → Nat → Option Nat
  | 0, _ => none
  | gas + 1, i =>
    if h : i + 1 < input.length then
      if (input.get ⟨i + 1, h⟩).isWhitespace then lookaheadGo input gas (i + 1)
      else some (i + 1)
    else none

/-- `TokenParser::lookahead_idx` with its fuel supplied. -/
def lookahead_idx (input : List Char) (i : Nat) : Option Nat :=
  lookaheadGo input input.length i

/-- The digit loop of `Iterator::next` (`src/src/main.rs` l. 50-69). -/
def lexNumGo (input : List Char) : Nat → Nat → Int → Except Err (Int × Nat)
  | 0, _, _ => .error .outOfFuel
  | gas + 1, i, a =>
    match input.get? i with
    | none => .error .indexOOB
    | some c =>
      if c.isDigit then
        let a' := a * 10 + dval c
        match lookahead_idx input i with
        | some j =>
          match input.get? j with
          | none => .error .indexOOB
          | some c' => if c'.isDigit then lexNumGo input gas j a' else .ok (a', i)
        | none => .ok (a', i)
      else .error .unwrapNone

/-- `Iterator::next` (`src/src/main.rs` l. 40-75), iterated to exhaustion. -/
def tfGo (input : List Char) : Nat → Option Nat → List Token × Option Err
  | _, none => ([], none)
  | 0, some _ => ([], some .outOfFuel)
  | gas + 1, some i =>
    if h : i < input.length then
      let c := input.get ⟨i, h⟩
      if c = '+' then
        let r := tfGo input gas (lookahead_idx input i); (.ADD :: r.1, r.2)
      else if c = '-' then
        let r := tfGo input gas (lookahead_idx input i); (.SUB :: r.1, r.2)
      else if c = '*' then
        let r := tfGo input gas (lookahead_idx input i); (.MUL :: r.1, r.2)
      else if c = '/' then
        let r := tfGo input gas (lookahead_idx input i); (.DIV :: r.1, r.2)
      else if c = '(' then
        let r := tfGo input gas (lookahead_idx input i); (.LPR :: r.1, r.2)
      else if c = ')' then
        let r := tfGo input gas (lookahead_idx input i); (.RPR :: r.1, r.2)
      else if c.isDigit then
        match lexNumGo input input.length i 0 with
        | .error e => ([], some e)
        | .ok (v, j) =>
          let r := tfGo input gas (lookahead_idx input j); (.NUM v :: r.1, r.2)
      else ([], some (.invalidChar c i))
    else ([], some .indexOOB)

/-- Token stream of `TokenParser::new(&input)` (`src/src/main.rs` l. 15-20). -/
def tokensFrom (input : List Char) : List Token × Option Err :=
  tfGo input (input.length + 1) (some 0)

mutual

/-- `parse_f` (`src/src/main.rs` l. 182-208). -/
def parse_f : Nat → TS → Except Err (ASTNode × Option Token × TS)
  | 0, _ => .error .outOfFuel
  | fuel + 1, ts =>
    match pull ts with
    | .error e => .error e
    | .ok none => .error .emptyFactor
    | .ok (some (t0, ts1)) =>
      match t0 with
      | .NUM v =>
        match pull ts1 with
        | .error e => .error e
        | .ok none => .ok (.NumNode v, none, ts1)
        | .ok (some (t, ts2)) => .ok (.NumNode v, some t, ts2)
      | .SUB =>
        match pull ts1 with
        | .error e => .error e
        | .ok none => .error .nothingAfterNeg
        | .ok (some (t1, ts2)) =>
          match t1 with
          | .NUM v =>
            match pull ts2 with
            | .error e => .error e
            | .ok none => .ok (.NegNode (.NumNode v), none, ts2)
            | .ok (some (t, ts3)) => .ok (.NegNode (.NumNode v), some t, ts3)
          | _ => .error (.nonNumAfterNeg t1)
      | .LPR =>
        match parse_e fuel ts1 with
        | .error e => .error e
        | .ok (expr, some .RPR, ts2) =>
          match pull ts2 with
          | .error e => .error e
          | .ok none => .ok (.ParNode expr, none, ts2)
          | .ok (some (t, ts3)) => .ok (.ParNode expr, some t, ts3)
        | .ok (_, _, _) => .error .openParen
      | t => .error (.illegalFactor t)

/-- The `while tv == MUL || tv == DIV` loop of `parse_t`
(`src/src/main.rs` l. 162-177). -/
def parse_t_loop : Nat → ASTNode → Token → TS → Except Err (ASTNode × Option Token × TS)
  | 0, _, _, _ => .error .outOfFuel
  | fuel + 1, n0, tv, ts =>
    match tv with
    | .MUL | .DIV =>
      match parse_f fuel ts with
      | .error e => .error e
      | .ok (n1, tn, ts1) =>
        let n0' := if tv = .MUL then ASTNode.MulNode n0 n1 else ASTNode.DivNode n0 n1
        match tn with
        | none => .ok (n0', none, ts1)
        | some tv' => parse_t_loop fuel n0' tv' ts1
    | _ => .ok (n0, some tv, ts)

/-- `parse_t` (`src/src/main.rs` l. 156-179). -/
def parse_t : Nat → TS → Except Err (ASTNode × Option Token × TS)
  | 0, _ => .error .outOfFuel
  | fuel + 1, ts =>
    match parse_f fuel ts with
    | .error e => .error e
    | .ok (n0, none, ts1) => .ok (n0, none, ts1)
    | .ok (n0, some tv, ts1) => parse_t_loop fuel n0 tv ts1

/-- The `while tv == ADD || tv == SUB` loop of `parse_e`
(`src/src/main.rs` l. 136-151). -/
def parse_e_loop : Nat → ASTNode → Token → TS → Except Err (ASTNode × Option Token × TS)
  | 0, _, _, _ => .error .outOfFuel
  | fuel + 1, n0, tv, ts =>
    match tv with
    | .ADD | .SUB =>
      match parse_t fuel ts with
      | .error e => .error e
      | .ok (n1, tn, ts1) =>
        let n0' := if tv = .ADD then ASTNode.AddNode n0 n1 else ASTNode.SubNode n0 n1
        match tn with
        | none => .ok (n0', none, ts1)
        | some tv' => parse_e_loop fuel n0' tv' ts1
    | _ => .ok (n0, some tv, ts)

/-- `parse_e` (`src/src/main.rs` l. 129-153). -/
def parse_e : Nat → TS → Except Err (ASTNode × Option Token × TS)
  | 0, _ => .error .outOfFuel
  | fuel + 1, ts =>
    match parse_t fuel ts with
    | .error e => .error e
    | .ok (n0, none, ts1) => .ok (n0, none, ts1)
    | .ok (n0, some tv, ts1) => parse_e_loop fuel n0 tv ts1

end

/-- `evaluate` (`src/src/main.rs` l. 120-126). -/
def evaluate (input : List Char) : Except Err ASTNode :=
  let ts := tokensFrom input
  match parse_e (parseFuel ts) ts with
  | .error e => .error e
  | .ok (n, none, _) => .ok n
  | .ok (_, some t, _) => .error (.trailingInput t)

/-- `Node::eval` (`src/src/main.rs` l. 91-118). -/
def evalNode : ASTNode → Except Err Int
  | .NumNode v => .ok v
  | .NegNode c => do let x ← evalNode c; return (-x)
  | .ParNode c => evalNode c
  | .MulNode l r => do let a ← evalNode l; let b ← evalNode r; return (a * b)
  | .DivNode l r => do
      let a ← evalNode l
      let b ← evalNode r
      if b = 0 then .error .divisionByZero else return (a.tdiv b)
  | .AddNode l r => do let a ← evalNode l; let b ← evalNode r; return (a + b)
  | .SubNode l r => do let a ← evalNode l; let b ← evalNode r; return (a - b)

/-- `Node::repr` (`src/src/main.rs` l. 91-118). -/
def reprNode : ASTNode → List Char
  | .NumNode v => intRepr v
  | .NegNode c => '<' :: '-' :: (reprNode c ++ ['>'])
  | .ParNode c => '(' :: (reprNode c ++ [')'])
  | .MulNode l r => '<' :: (reprNode l ++ '*' :: (reprNode r ++ ['>']))
  | .DivNode l r => '<' :: (reprNode l ++ '/' :: (reprNode r ++ ['>']))
  | .AddNode l r => '<' :: (reprNode l ++ '+' :: (reprNode r ++ ['>']))
  | .SubNode l r => '<' :: (reprNode l ++ '-' :: (reprNode r ++ ['>']))

/-- The `src/src/main.rs` pipeline: value and rendered string. -/
def runFull (input : List Char) : Except Err (Int × List Char) :=
  match MainRs.evaluate input with
  | .error e => .error e
  | .ok n =>
    match MainRs.evalNode n with
    | .error e => .error e
    | .ok v => .ok (v, MainRs.reprNode n)

end MainRs

theorem isDigit_toNat {c : Char} (h : c.isDigit) : 48 ≤ c.toNat ∧ c.toNat ≤ 57 := by
  simp [Char.isDigit] at h
  obtain ⟨h1, h2⟩ := h
  exact ⟨h1, h2⟩

theorem digitChar_isDigit {m : Nat} (h : m < 10) : (digitChar m).isDigit := by
  interval_cases m <;> decide

theorem digitChar_toNat {m : Nat} (h : m < 10) : (digitChar m).toNat = 48 + m := by
  interval_cases m <;> decide

theorem digitChar_ne_zero {m : Nat} (h1 : 1 ≤ m) (h2 : m < 10) : digitChar m ≠ '0' := by
  interval_cases m <;> decide

theorem digitChar_of_isDigit {c : Char} (h : c.isDigit) : digitChar (c.toNat - 48) = c := by
  have hb := isDigit_toNat h
  unfold digitChar
  have : 48 + (c.toNat - 48) = c.toNat := by omega
  rw [this, Char.ofNat_toNat]

theorem ndGo_congr (n : Nat) : ∀ g g', n < 10 ^ g → n < 10 ^ g' → 0 < g → 0 < g' →
    ndGo g n = ndGo g' n := by
  induction n using Nat.strong_induction_on with
  | _ n ih =>
    intro g g' hg hg' hg0 hg0'
    obtain ⟨g1, rfl⟩ : ∃ k, g = k + 1 := ⟨g - 1, by omega⟩
    obtain ⟨g2, rfl⟩ : ∃ k, g' = k + 1 := ⟨g' - 1, by omega⟩
    by_cases h10 : n < 10
    · simp [ndGo, h10]
    · have hrec : n / 10 < n := Nat.div_lt_self (by omega) (by omega)
      have hp1 : n / 10 < 10 ^ g1 := by
        apply Nat.div_lt_of_lt_mul
        have : (10 : ℕ) ^ (g1 + 1) = 10 * 10 ^ g1 := by ring
        omega
      have hp2 : n / 10 < 10 ^ g2 := by
        apply Nat.div_lt_of_lt_mul
        have : (10 : ℕ) ^ (g2 + 1) = 10 * 10 ^ g2 := by ring
        omega
      have hg1 : 0 < g1 := by
        rcases Nat.eq_zero_or_pos g1 with h | h
        · subst h; simp at hp1; omega
        · exact h
      have hg2 : 0 < g2 := by
        rcases Nat.eq_zero_or_pos g2 with h | h
        · subst h; simp at hp2; omega
        · exact h
      simp only [ndGo, if_neg h10]
      rw [ih (n / 10) hrec g1 g2 hp1 hp2 hg1 hg2]

theorem natDigits_lt {n : Nat} (h : n < 10) : natDigits n = [digitChar n] := by
  simp [natDigits, ndGo, h]

theorem natDigits_ge {n : Nat} (h : 10 ≤ n) :
    natDigits n = natDigits (n / 10) ++ [digitChar (n % 10)] := by
  have h1 : n / 10 < 10 ^ n := lt_of_le_of_lt (Nat.div_le_self n 10)
    (Nat.lt_pow_self (by norm_num) n)
  have h2 : n / 10 < 10 ^ (n / 10 + 1) :=
    lt_of_lt_of_le (Nat.lt_pow_self (by norm_num) (n / 10))
      (Nat.pow_le_pow_right (by norm_num) (Nat.le_succ _))
  have key : natDigits n = ndGo n (n / 10) ++ [digitChar (n % 10)] := by
    unfold natDigits
    simp only [ndGo, if_neg (not_lt.2 h)]
  rw [key, ndGo_congr (n / 10) n (n / 10 + 1) h1 h2 (by omega) (by omega)]
  rfl

theorem natDigits_all_digits (n : Nat) : ∀ c ∈ natDigits n, c.isDigit := by
  induction n using Nat.strong_induction_on with
  | _ n ih =>
    by_cases h10 : n < 10
    · rw [natDigits_lt h10]
      intro c hc
      simp at hc
      subst hc
      exact digitChar_isDigit h10
    · rw [natDigits_ge (by omega)]
      intro c hc
      rcases List.mem_append.mp hc with h | h
      · exact ih (n / 10) (Nat.div_lt_self (by omega) (by omega)) c h
      · simp at h
        subst h
        exact digitChar_isDigit (Nat.mod_lt _ (by omega))

theorem natDigits_ne_nil (n : Nat) : natDigits n ≠ [] := by
  by_cases h10 : n < 10
  · rw [natDigits_lt h10]; simp
  · rw [natDigits_ge (by omega)]; simp

theorem digitsVal_natDigits (n : Nat) : digitsVal (natDigits n) = n := by
  induction n using Nat.strong_induction_on with
  | _ n ih =>
    by_cases h10 : n < 10
    · rw [natDigits_lt h10]
      simp [digitsVal, digitChar_toNat h10]
    · rw [natDigits_ge (by omega)]
      unfold digitsVal
      rw [List.foldl_append]
      have := ih (n / 10) (Nat.div_lt_self (by omega) (by omega))
      unfold digitsVal at this
      rw [this]
      simp [digitChar_toNat (Nat.mod_lt n (show 0 < 10 by omega))]
      omega

theorem natDigits_head_ne_zero (n : Nat) (h : 1 ≤ n) :
    (natDigits n).head? ≠ some '0' := by
  induction n using Nat.strong_induction_on with
  | _ n ih =>
    by_cases h10 : n < 10
    · rw [natDigits_lt h10]
      simp
      exact digitChar_ne_zero h h10
    · rw [natDigits_ge (by omega)]
      rw [List.head?_append_of_ne_nil _ (natDigits_ne_nil _)]
      exact ih (n / 10) (Nat.div_lt_self (by omega) (by omega)) (by omega)

theorem foldl_val_ge (ds : List Char) :
    ∀ a : Nat, a ≤ ds.foldl (fun x c => x * 10 + (c.toNat - 48)) a := by
  induction ds with
  | nil => intro a; simp
  | cons c cs ih =>
    intro a
    simp only [List.foldl_cons]
    calc a ≤ a * 10 + (c.toNat - 48) := by omega
    _ ≤ _ := ih _

theorem digitsVal_pos (ds : List Char) (h0 : ds ≠ []) (hh : ds.head? ≠ some '0')
    (hd : ∀ c ∈ ds, c.isDigit) : 1 ≤ digitsVal ds := by
  obtain ⟨c, cs, rfl⟩ := List.exists_cons_of_ne_nil h0
  have hc : c.isDigit := hd c (by simp)
  have hne : c ≠ '0' := by simpa using hh
  have h48 := isDigit_toNat hc
  have hcv : 1 ≤ c.toNat - 48 := by
    rcases Nat.lt_or_ge 48 c.toNat with h | h
    · omega
    · have ht : c.toNat - 48 = 0 := by omega
      have hdc := digitChar_of_isDigit hc
      rw [ht] at hdc
      have : c = '0' := by rw [← hdc]; rfl
      contradiction
  unfold digitsVal
  simp only [List.foldl_cons]
  calc 1 ≤ 0 * 10 + (c.toNat - 48) := by omega
  _ ≤ _ := foldl_val_ge cs _

theorem natDigits_digitsVal_aux (ds : List Char) :
    ds ≠ [] → (∀ c ∈ ds, c.isDigit) → ds.head? ≠ some '0' →
    natDigits (digitsVal ds) = ds := by
  induction ds using List.reverseRecOn with
  | nil => intro h; exact absurd rfl h
  | append_singleton A c ihA =>
    intro _ hd hz
    have hc : c.isDigit := hd c (by simp)
    have hb := isDigit_toNat hc
    by_cases hA : A = []
    · subst hA
      have hv : digitsVal [c] = c.toNat - 48 := by simp [digitsVal]
      simp only [List.nil_append]
      rw [hv, natDigits_lt (by omega), digitChar_of_isDigit hc]
    · have hdA : ∀ x ∈ A, x.isDigit := fun x hx => hd x (by simp [hx])
      have hzA : A.head? ≠ some '0' := by
        rwa [List.head?_append_of_ne_nil _ hA] at hz
      have hvA : 1 ≤ digitsVal A := digitsVal_pos A hA hzA hdA
      have hval : digitsVal (A ++ [c]) = digitsVal A * 10 + (c.toNat - 48) := by
        unfold digitsVal
        rw [List.foldl_append]
        simp
      rw [hval, natDigits_ge (by omega)]
      have hdiv : (digitsVal A * 10 + (c.toNat - 48)) / 10 = digitsVal A := by omega
      have hmod : (digitsVal A * 10 + (c.toNat - 48)) % 10 = c.toNat - 48 := by omega
      rw [hdiv, hmod, ihA hA hdA hzA, digitChar_of_isDigit hc]

theorem foldl_int_eq_nat (ds : List Char) :
    ∀ a : Nat, List.foldl (fun x c => x * 10 + dval c) (a : Int) ds =
      ((ds.foldl (fun x c => x * 10 + (c.toNat - 48)) a : Nat) : Int) := by
  induction ds with
  | nil => intro a; simp
  | cons c cs ih =>
    intro a
    simp only [List.foldl_cons]
    have hstep : (a : Int) * 10 + dval c = ((a * 10 + (c.toNat - 48) : Nat) : Int) := by
      unfold dval; push_cast; ring
    rw [hstep, ih]

/-- Claim C1: `evaluate` computes values under standard arithmetic precedence
with left-associative binary operators: `"1-2-3"` evaluates to `-4` (not 2),
`"2+3*4"` to `14`, `"(2+3)*4"` to `20`, and the worked examples hold:
`"-1 * (-2 + 5)"` → `-3`, `"12 + 34 - (56 / 7) * 8"` → `-18`,
`"(-12 + 34) * ((56 / 7) + 8)"` → `352`. -/
theorem claim_C1 :
    calcValue "1-2-3".toList = .ok (-4) ∧
    calcValue "2+3*4".toList = .ok 14 ∧
    calcValue "(2+3)*4".toList = .ok 20 ∧
    calcValue "-1 * (-2 + 5)".toList = .ok (-3) ∧
    calcValue "12 + 34 - (56 / 7) * 8".toList = .ok (-18) ∧
    calcValue "(-12 + 34) * ((56 / 7) + 8)".toList = .ok 352 := by
  decide

/-- Counterexample to claim C2 as stated: an integer literal preceded by
whitespace is not returned unchanged — the tokenizer's cursor starts at
index 0 and the whitespace skip only looks strictly ahead, so a leading
space is lexed as an invalid character (the spec's own §9 quirk); moreover
the spec's whitespace example `"  12   +   3 "` fails for the same reason,
and for a literal with leading zeros (`"007"`) the rendered string is `"7"`,
not the literal's digits. -/
theorem claim_C2_counterexample :
    evaluate " 1".toList = .error (.invalidChar ' ' 0) ∧
    evaluate "  12   +   3 ".toList = .error (.invalidChar ' ' 0) ∧
    runFull "007".toList = .ok (7, "7".toList) := by
  decide

/-- Claim C3 (documenting the code bug): for the input `"1 2"` the code does
not fail with `TrailingInput`; the digit-accumulation loop looks ahead with
the whitespace-skipping `next_char_idx`, so the digit after the space is
consumed into the same literal and the input evaluates to `12`. -/
theorem claim_C3 : runFull "1 2".toList = .ok (12, "12".toList) := by decide

/-- Claim C5: division of evaluated operands is integer division truncating
toward zero (`Int.tdiv`): whenever both operands evaluate and the divisor is
non-zero, `DivNode` evaluates to the truncated quotient; `"7/2"` evaluates
to `3` and `"-7/2"` evaluates to `-3`. -/
theorem claim_C5 :
    (∀ l r a b, evalNode l = .ok a → evalNode r = .ok b → b ≠ 0 →
      evalNode (.DivNode l r) = .ok (a.tdiv b)) ∧
    Int.tdiv 7 2 = 3 ∧ Int.tdiv (-7) 2 = -3 ∧
    calcValue "7/2".toList = .ok 3 ∧
    calcValue "-7/2".toList = .ok (-3) := by
  refine ⟨?_, by decide, by decide, by decide, by decide⟩
  intro l r a b hl hr hb
  simp [evalNode, hl, hr, hb, bind, Except.bind, pure, Except.pure]

/-- Witness for claim C5: the general conjunct applied at `7 / 2`. -/
theorem claim_C5_witness :
    evalNode (.DivNode (.NumNode 7) (.NumNode 2)) = .ok (Int.tdiv 7 2) :=
  claim_C5.1 (.NumNode 7) (.NumNode 2) 7 2 rfl rfl (by decide)

/-- Claim C6: `"1/0"` parses successfully to `Divide(1, 0)`, and the
`DivisionByZero` failure is raised during evaluation of that tree, not
during parsing. -/
theorem claim_C6 :
    evaluate "1/0".toList = .ok (.DivNode (.NumNode 1) (.NumNode 0)) ∧
    evalNode (.DivNode (.NumNode 1) (.NumNode 0)) = .error .divisionByZero ∧
    runFull "1/0".toList = .error .divisionByZero := by
  decide

/-- Claim C7: unary minus applies only to an immediately following number
literal: `"-(1+2)"` fails with an `UnexpectedToken`-class error, `"--1"`
fails, and whenever the token after `SUB` is a `NUM`, `parse_f` produces
`Negate(Number)`. -/
theorem claim_C7 :
    evaluate "-(1+2)".toList = .error (.nonNumAfterNeg .LPR) ∧
    isUnexpectedTokenErr (.nonNumAfterNeg .LPR) ∧
    evaluate "--1".toList = .error (.nonNumAfterNeg .SUB) ∧
    (∀ (v : Int) (rest : List Token) (fuel : Nat),
      parse_f (fuel + 1) (.SUB :: .NUM v :: rest, none) =
        .ok (.NegNode (.NumNode v), rest.head?, (rest.tail, none))) := by
  refine ⟨by decide, Or.inl ⟨_, rfl⟩, by decide, ?_⟩
  intro v rest fuel
  cases rest <;> rfl

/-- Witness for claim C7: the `Negate(Number)` conjunct at `- 5`. -/
theorem claim_C7_witness :
    parse_f 1 (.SUB :: .NUM 5 :: [], none) =
      .ok (.NegNode (.NumNode 5), none, ([], none)) :=
  claim_C7.2.2.2 5 [] 0

/-- Counterexample to claim C8 as stated: `"1+2)"` does not fail with an
`UnexpectedToken`-class error; the trailing `)` is left pending after a
complete expression and the driver reports `TrailingInput`. -/
theorem claim_C8_counterexample :
    evaluate "1+2)".toList = .error (.trailingInput .RPR) ∧
    ¬ isUnexpectedTokenErr (.trailingInput .RPR) := by
  refine ⟨by decide, ?_⟩
  rintro (⟨t, h⟩ | ⟨t, h⟩) <;> simp at h

/-- Claim C8 as amended: `"(1+2"` fails with `UnbalancedParenthesis`
(the `parse_f` open-parenthesis panic) and `"1+2)"` fails with
`TrailingInput(RPR)`. -/
theorem claim_C8 :
    evaluate "(1+2".toList = .error .openParen ∧
    evaluate "1+2)".toList = .error (.trailingInput .RPR) := by
  decide

/-- Claim C9 (documenting the code bug): a dangling `"-"` and a dangling
`"("` fail with the two `UnexpectedEndOfInput`-class panics, but on the
empty input the tokenizer indexes `input[0]` out of bounds — the failure is
the vector bounds-check panic, not a grammar-level `UnexpectedEndOfInput`. -/
theorem claim_C9 :
    evaluate "".toList = .error .indexOOB ∧
    ¬ isUnexpectedEndOfInput .indexOOB ∧
    evaluate "-".toList = .error .nothingAfterNeg ∧
    isUnexpectedEndOfInput .nothingAfterNeg ∧
    evaluate "(".toList = .error .emptyFactor ∧
    isUnexpectedEndOfInput .emptyFactor := by
  refine ⟨by decide, ?_, by decide, Or.inr rfl, by decide, Or.inl rfl⟩
  rintro (h | h) <;> simp at h

theorem lookaheadGo_eq (input : List Char) :
    ∀ gas i, MainRs.lookaheadGo input gas i = nextIdxGo input gas i := by
  intro gas
  induction gas with
  | zero => intro i; rfl
  | succ gas ih =>
    intro i
    simp only [MainRs.lookaheadGo, nextIdxGo, ih]

theorem lookahead_idx_eq (input : List Char) (i : Nat) :
    MainRs.lookahead_idx input i = nextIdx input i :=
  lookaheadGo_eq input input.length i

theorem mainRs_lexNumGo_eq (input : List Char) :
    ∀ gas i a, MainRs.lexNumGo input gas i a = lexNumGo input gas i a := by
  intro gas
  induction gas with
  | zero => intro i a; rfl
  | succ gas ih =>
    intro i a
    simp only [MainRs.lexNumGo, lexNumGo, lookahead_idx_eq, ih]

theorem mainRs_tfGo_eq (input : List Char) :
    ∀ gas oi, MainRs.tfGo input gas oi = tfGo input gas oi := by
  intro gas
  induction gas with
  | zero => intro oi; cases oi <;> rfl
  | succ gas ih =>
    intro oi
    cases oi with
    | none => rfl
    | some i =>
      simp only [MainRs.tfGo, tfGo, lookahead_idx_eq, mainRs_lexNumGo_eq, ih]

theorem mainRs_tokensFrom_eq (input : List Char) :
    MainRs.tokensFrom input = tokensFrom input :=
  mainRs_tfGo_eq input (input.length + 1) (some 0)

theorem mainRs_parse_eq :
    ∀ fuel,
      (∀ ts, MainRs.parse_f fuel ts = parse_f fuel ts) ∧
      (∀ n0 tv ts, MainRs.parse_t_loop fuel n0 tv ts = parse_t_loop fuel n0 tv ts) ∧
      (∀ ts, MainRs.parse_t fuel ts = parse_t fuel ts) ∧
      (∀ n0 tv ts, MainRs.parse_e_loop fuel n0 tv ts = parse_e_loop fuel n0 tv ts) ∧
      (∀ ts, MainRs.parse_e fuel ts = parse_e fuel ts) := by
  intro fuel
  induction fuel with
  | zero => exact ⟨fun _ => rfl, fun _ _ _ => rfl, fun _ => rfl, fun _ _ _ => rfl, fun _ => rfl⟩
  | succ fuel ih =>
    obtain ⟨ihf, ihtl, iht, ihel, ihe⟩ := ih
    have hf : ∀ ts, MainRs.parse_f (fuel + 1) ts = parse_f (fuel + 1) ts := by
      intro ts
      simp only [MainRs.parse_f, parse_f, ihe]
    have htl : ∀ n0 tv ts,
        MainRs.parse_t_loop (fuel + 1) n0 tv ts = parse_t_loop (fuel + 1) n0 tv ts := by
      intro n0 tv ts
      simp only [MainRs.parse_t_loop, parse_t_loop, ihf, ihtl]
    have ht : ∀ ts, MainRs.parse_t (fuel + 1) ts = parse_t (fuel + 1) ts := by
      intro ts
      simp only [MainRs.parse_t, parse_t, ihf, ihtl]
    have hel : ∀ n0 tv ts,
        MainRs.parse_e_loop (fuel + 1) n0 tv ts = parse_e_loop (fuel + 1) n0 tv ts := by
      intro n0 tv ts
      simp only [MainRs.parse_e_loop, parse_e_loop, iht, ihel]
    have he : ∀ ts, MainRs.parse_e (fuel + 1) ts = parse_e (fuel + 1) ts := by
      intro ts
      simp only [MainRs.parse_e, parse_e, iht, ihel]
    exact ⟨hf, htl, ht, hel, he⟩

theorem mainRs_evaluate_eq (input : List Char) :
    MainRs.evaluate input = evaluate input := by
  have hpe : ∀ fuel ts, MainRs.parse_e fuel ts = parse_e fuel ts :=
    fun fuel => (mainRs_parse_eq fuel).2.2.2.2
  simp only [MainRs.evaluate, evaluate, mainRs_tokensFrom_eq, hpe]

theorem mainRs_evalNode_eq (n : ASTNode) : MainRs.evalNode n = evalNode n := by
  induction n <;> simp [MainRs.evalNode, evalNode, *]

theorem mainRs_reprNode_eq (n : ASTNode) : MainRs.reprNode n = reprNode n := by
  induction n <;> simp [MainRs.reprNode, reprNode, *]

/-- Claim C10: the two near-duplicate source copies are behaviorally
equivalent — for every input character sequence, the `src/calc.rs` pipeline
and the `src/src/main.rs` pipeline produce the same outcome: the same parse
result, the same numeric value and the same rendered string on success, and
the same failure otherwise. -/
theorem claim_C10 :
    ∀ input : List Char,
      MainRs.evaluate input = evaluate input ∧ MainRs.runFull input = runFull input := by
  intro input
  refine ⟨mainRs_evaluate_eq input, ?_⟩
  unfold MainRs.runFull runFull
  rw [mainRs_evaluate_eq]
  cases evaluate input with
  | error e => rfl
  | ok n => simp only [mainRs_evalNode_eq, mainRs_reprNode_eq]

/-- Witness for claim C10 at a concrete input. -/
theorem claim_C10_witness :
    MainRs.evaluate "1+2".toList = evaluate "1+2".toList ∧
    MainRs.runFull "1+2".toList = runFull "1+2".toList :=
  claim_C10 "1+2".toList

theorem goodChar_not_ws {c : Char} (h : goodChar c) : ¬ c.isWhitespace := by
  intro hw
  simp [Char.isWhitespace] at hw
  rcases hw with ((rfl | rfl) | rfl) | rfl <;> exact absurd h (by decide)

theorem nextIdxGo_none_of_ge (input : List Char) {i : Nat} (h : input.length ≤ i + 1) :
    ∀ g, nextIdxGo input g i = none := by
  intro g
  cases g with
  | zero => rfl
  | succ g => simp [nextIdxGo, Nat.not_lt.2 h]

theorem nextIdxGo_congr (input : List Char) :
    ∀ g g' i, input.length ≤ g + i + 1 → input.length ≤ g' + i + 1 →
      nextIdxGo input g i = nextIdxGo input g' i := by
  intro g
  induction g with
  | zero =>
    intro g' i hg hg'
    rw [nextIdxGo_none_of_ge input (by omega) 0, nextIdxGo_none_of_ge input (by omega) g']
  | succ g ih =>
    intro g' i hg hg'
    cases g' with
    | zero =>
      rw [nextIdxGo_none_of_ge input (by omega) (g + 1), nextIdxGo_none_of_ge input (by omega) 0]
    | succ g' =>
      by_cases h1 : i + 1 < input.length
      · simp only [nextIdxGo, dif_pos h1]
        by_cases hws : (input.get ⟨i + 1, h1⟩).isWhitespace
        · simp only [if_pos hws]
          exact ih g' (i + 1) (by omega) (by omega)
        · simp only [if_neg hws]
      · simp only [nextIdxGo, dif_neg h1]

theorem nextIdx_noWs (input : List Char) (hws : ∀ c ∈ input, ¬ c.isWhitespace) (i : Nat) :
    nextIdx input i = if i + 1 < input.length then some (i + 1) else none := by
  unfold nextIdx
  by_cases h1 : i + 1 < input.length
  · have hlen : 1 ≤ input.length := by omega
    obtain ⟨m, hm⟩ : ∃ m, input.length = m + 1 := ⟨input.length - 1, by omega⟩
    rw [hm]
    simp only [nextIdxGo, ← hm, dif_pos h1]
    rw [if_neg (hws _ (List.get_mem input _ _)), if_pos h1]
  · rw [nextIdxGo_none_of_ge input (by omega) input.length, if_neg h1]

theorem nextIdxGo_some_lt (input : List Char) :
    ∀ g i j, nextIdxGo input g i = some j → i < j ∧ j < input.length := by
  intro g
  induction g with
  | zero => intro i j h; exact absurd h (by simp [nextIdxGo])
  | succ g ih =>
    intro i j h
    simp only [nextIdxGo] at h
    by_cases h1 : i + 1 < input.length
    · rw [dif_pos h1] at h
      by_cases hws : (input.get ⟨i + 1, h1⟩).isWhitespace
      · rw [if_pos hws] at h
        have := ih (i + 1) j h
        omega
      · rw [if_neg hws] at h
        cases h
        omega
    · rw [dif_neg h1] at h
      cases h

theorem lexNumS_append (ds : List Char) :
    ∀ a rest, (∀ c ∈ ds, c.isDigit) → (∀ c, rest.head? = some c → ¬ c.isDigit) →
      lexNumS (ds ++ rest) a = (List.foldl (fun x c => x * 10 + dval c) a ds, rest) := by
  induction ds with
  | nil =>
    intro a rest _ hrest
    cases rest with
    | nil => rfl
    | cons r rs =>
      have := hrest r rfl
      simp [lexNumS, this]
  | cons c cs ih =>
    intro a rest hds hrest
    have hc : c.isDigit := hds c (by simp)
    simp only [List.cons_append, lexNumS, if_pos hc, List.foldl_cons]
    exact ih _ rest (fun x hx => hds x (by simp [hx])) hrest

theorem drop_head_get (input : List Char) {i : Nat} (hi : i < input.length) :
    input.drop i = input.get ⟨i, hi⟩ :: input.drop (i + 1) := by
  rw [List.drop_eq_getElem_cons hi]
  rfl

theorem lexNumGo_spec (input : List Char) (hws : ∀ c ∈ input, ¬ c.isWhitespace) :
    ∀ g i a, input.length - i ≤ g → ∀ hi : i < input.length,
      (input.get ⟨i, hi⟩).isDigit →
      lexNumGo input g i a =
        .ok (List.foldl (fun x c => x * 10 + dval c) a
               ((input.drop i).takeWhile (fun c => c.isDigit)),
             i + ((input.drop i).takeWhile (fun c => c.isDigit)).length - 1) := by
  intro g
  induction g with
  | zero => intro i a hg hi; omega
  | succ g ih =>
    intro i a hg hi hd
    have hget : input.get? i = some (input.get ⟨i, hi⟩) := List.get?_eq_get hi
    simp only [lexNumGo, hget, if_pos hd, nextIdx_noWs input hws]
    by_cases h1 : i + 1 < input.length
    · rw [if_pos h1]
      have hget1 : input.get? (i + 1) = some (input.get ⟨i + 1, h1⟩) := List.get?_eq_get h1
      simp only [hget1]
      have hdrop : input.drop i = input.get ⟨i, hi⟩ :: input.drop (i + 1) :=
        drop_head_get input hi
      have hdrop1 : input.drop (i + 1) = input.get ⟨i + 1, h1⟩ :: input.drop (i + 2) :=
        drop_head_get input h1
      by_cases hd1 : (input.get ⟨i + 1, h1⟩).isDigit
      · rw [if_pos hd1, ih (i + 1) (a * 10 + dval (input.get ⟨i, hi⟩)) (by omega) h1 hd1]
        rw [hdrop, List.takeWhile_cons, if_pos hd]
        simp only [List.foldl_cons, List.length_cons]
        have hx : i + 1 + ((input.drop (i + 1)).takeWhile (fun c => c.isDigit)).length - 1
            = i + (((input.drop (i + 1)).takeWhile (fun c => c.isDigit)).length + 1) - 1 := by
          omega
        rw [hx]
      · rw [if_neg hd1]
        rw [hdrop, List.takeWhile_cons, if_pos hd, hdrop1, List.takeWhile_cons, if_neg hd1]
        simp
    · rw [if_neg h1]
      have hdrop : input.drop i = input.get ⟨i, hi⟩ :: input.drop (i + 1) :=
        drop_head_get input hi
      have hnil : input.drop (i + 1) = [] := List.drop_eq_nil_of_le (by omega)
      rw [hdrop, hnil, List.takeWhile_cons, if_pos hd]
      simp

theorem lexToks_digit {c : Char} (hc : c.isDigit) (cs : List Char) :
    lexToks (c :: cs) = .NUM (lexNumS cs (dval c)).1 :: lexToks (lexNumS cs (dval c)).2 := by
  have h1 : c ≠ '+' := by rintro rfl; exact absurd hc (by decide)
  have h2 : c ≠ '-' := by rintro rfl; exact absurd hc (by decide)
  have h3 : c ≠ '*' := by rintro rfl; exact absurd hc (by decide)
  have h4 : c ≠ '/' := by rintro rfl; exact absurd hc (by decide)
  have h5 : c ≠ '(' := by rintro rfl; exact absurd hc (by decide)
  have h6 : c ≠ ')' := by rintro rfl; exact absurd hc (by decide)
  simp only [lexToks, if_neg h1, if_neg h2, if_neg h3, if_neg h4, if_neg h5, if_neg h6,
    if_pos hc]

theorem head_not_digit_of_dropWhile (l : List Char) :
    ∀ c, (l.dropWhile (fun c => c.isDigit)).head? = some c → ¬ c.isDigit := by
  intro c hc
  have h := List.head?_dropWhile_not (fun c => c.isDigit) l
  rw [hc] at h
  simp at h
  simp [h]

theorem length_takeWhile_le_self (p : Char → Bool) (l : List Char) :
    (l.takeWhile p).length ≤ l.length := by
  induction l with
  | nil => simp
  | cons x xs ih =>
    rw [List.takeWhile_cons]
    by_cases h : p x
    · simp only [if_pos h, List.length_cons]
      omega
    · simp [if_neg h]

theorem tfGo_eq_lexToks (input : List Char) (hg : ∀ c ∈ input, goodChar c) :
    ∀ g i, i < input.length → input.length - i ≤ g →
      tfGo input g (some i) = (lexToks (input.drop i), none) := by
  have hws : ∀ c ∈ input, ¬ c.isWhitespace := fun c hc => goodChar_not_ws (hg c hc)
  intro g
  induction g with
  | zero => intro i hi hgas; omega
  | succ g ih =>
    intro i hi hgas
    have hdrop : input.drop i = input.get ⟨i, hi⟩ :: input.drop (i + 1) :=
      drop_head_get input hi
    have hgc : goodChar (input.get ⟨i, hi⟩) := hg _ (List.get_mem input _ _)
    simp only [goodChar, Bool.or_eq_true, decide_eq_true_eq] at hgc
    rcases hgc with ((((((hcd | hc1) | hc1) | hc1) | hc1) | hc1) | hc1)
    -- digit case
    case _ =>
      have h1 : input.get ⟨i, hi⟩ ≠ '+' := by
        intro h; rw [h] at hcd; exact absurd hcd (by decide)
      have h2 : input.get ⟨i, hi⟩ ≠ '-' := by
        intro h; rw [h] at hcd; exact absurd hcd (by decide)
      have h3 : input.get ⟨i, hi⟩ ≠ '*' := by
        intro h; rw [h] at hcd; exact absurd hcd (by decide)
      have h4 : input.get ⟨i, hi⟩ ≠ '/' := by
        intro h; rw [h] at hcd; exact absurd hcd (by decide)
      have h5 : input.get ⟨i, hi⟩ ≠ '(' := by
        intro h; rw [h] at hcd; exact absurd hcd (by decide)
      have h6 : input.get ⟨i, hi⟩ ≠ ')' := by
        intro h; rw [h] at hcd; exact absurd hcd (by decide)
      have hlex := lexNumGo_spec input hws input.length i 0 (by omega) hi hcd
      have hrun : (input.drop i).takeWhile (fun c => c.isDigit) =
          input.get ⟨i, hi⟩ :: (input.drop (i + 1)).takeWhile (fun c => c.isDigit) := by
        rw [hdrop, List.takeWhile_cons, if_pos hcd]
      have hrest : (input.drop i).dropWhile (fun c => c.isDigit) =
          (input.drop (i + 1)).dropWhile (fun c => c.isDigit) := by
        rw [hdrop, List.dropWhile_cons, if_pos hcd]
      have hsplit : (input.drop (i + 1)).takeWhile (fun c => c.isDigit) ++
          (input.drop (i + 1)).dropWhile (fun c => c.isDigit) = input.drop (i + 1) :=
        List.takeWhile_append_dropWhile _ _
      have hlexS : lexNumS (input.drop (i + 1)) (dval (input.get ⟨i, hi⟩)) =
          (List.foldl (fun x c => x * 10 + dval c) (dval (input.get ⟨i, hi⟩))
            ((input.drop (i + 1)).takeWhile (fun c => c.isDigit)),
           (input.drop (i + 1)).dropWhile (fun c => c.isDigit)) := by
        conv_lhs => rw [← hsplit]
        exact lexNumS_append _ _ _
          (fun x hx => List.mem_takeWhile_imp hx)
          (head_not_digit_of_dropWhile _)
      have hfold : List.foldl (fun x c => x * 10 + dval c) 0
            ((input.drop i).takeWhile (fun c => c.isDigit)) =
          List.foldl (fun x c => x * 10 + dval c) (dval (input.get ⟨i, hi⟩))
            ((input.drop (i + 1)).takeWhile (fun c => c.isDigit)) := by
        rw [hrun]
        simp
      have hL : ((input.drop i).takeWhile (fun c => c.isDigit)).length =
          ((input.drop (i + 1)).takeWhile (fun c => c.isDigit)).length + 1 := by
        rw [hrun]
        rfl
      have hLle : ((input.drop (i + 1)).takeWhile (fun c => c.isDigit)).length + 1 ≤
          input.length - i := by
        have hle := length_takeWhile_le_self (fun c => c.isDigit) (input.drop i)
        rw [hL] at hle
        simp [List.length_drop] at hle
        omega
      have hdropL : input.drop
            (i + (((input.drop (i + 1)).takeWhile (fun c => c.isDigit)).length + 1)) =
          (input.drop (i + 1)).dropWhile (fun c => c.isDigit) := by
        have hsplit0 : input.drop i =
            (input.drop i).takeWhile (fun c => c.isDigit) ++
              (input.drop (i + 1)).dropWhile (fun c => c.isDigit) := by
          conv_lhs =>
            rw [← List.takeWhile_append_dropWhile (fun c => c.isDigit) (input.drop i)]
          rw [hrest]
        have h2 := List.drop_left ((input.drop i).takeWhile (fun c => c.isDigit))
          ((input.drop (i + 1)).dropWhile (fun c => c.isDigit))
        rw [← hsplit0, List.drop_drop, hL] at h2
        exact h2
      simp only [tfGo, dif_pos hi, if_neg h1, if_neg h2, if_neg h3, if_neg h4,
        if_neg h5, if_neg h6, if_pos hcd, hlex]
      have hj : i + ((input.drop i).takeWhile (fun c => c.isDigit)).length - 1 + 1 =
          i + (((input.drop (i + 1)).takeWhile (fun c => c.isDigit)).length + 1) := by
        rw [hL]; omega
      rw [nextIdx_noWs input hws, hj]
      by_cases hend :
          i + (((input.drop (i + 1)).takeWhile (fun c => c.isDigit)).length + 1) <
            input.length
      · rw [if_pos hend, ih _ hend (by omega)]
        conv_rhs => rw [hdrop, lexToks_digit hcd, hlexS]
        rw [hfold, hdropL]
      · rw [if_neg hend]
        have hnil : (input.drop (i + 1)).dropWhile (fun c => c.isDigit) = [] := by
          rw [← hdropL]
          exact List.drop_eq_nil_of_le (by omega)
        conv_rhs => rw [hdrop, lexToks_digit hcd, hlexS]
        rw [hfold, hnil]
        simp [lexToks, tfGo]
    -- the six symbol cases
    all_goals {
      rw [hc1] at hdrop
      simp only [tfGo, dif_pos hi, hc1]
      rw [nextIdx_noWs input hws]
      by_cases h1 : i + 1 < input.length
      · rw [if_pos h1, ih (i + 1) h1 (by omega), hdrop]
        simp [lexToks]
      · rw [if_neg h1]
        have hnil : input.drop (i + 1) = [] := List.drop_eq_nil_of_le (by omega)
        rw [hdrop, hnil]
        simp [lexToks, tfGo]
    }

theorem tokensFrom_eq_lexToks (input : List Char) (hg : ∀ c ∈ input, goodChar c)
    (h0 : input ≠ []) : tokensFrom input = (lexToks input, none) := by
  have hlen : 0 < input.length := List.length_pos.2 h0
  have h := tfGo_eq_lexToks input hg (input.length + 1) 0 hlen (by omega)
  simpa using h

theorem pull_ok_some {ts : TS} {t : Token} {ts' : TS} (h : pull ts = .ok (some (t, ts'))) :
    ts.1 = t :: ts'.1 ∧ ts.2 = ts'.2 := by
  obtain ⟨l, e⟩ := ts
  cases l with
  | nil => cases e <;> simp [pull] at h
  | cons x xs =>
    simp only [pull, Except.ok.injEq, Option.some.injEq, Prod.mk.injEq] at h
    obtain ⟨rfl, rfl⟩ := h
    exact ⟨rfl, rfl⟩

theorem pull_nonneg {ts : TS} {t : Token} {ts' : TS} (h : pull ts = .ok (some (t, ts')))
    (hn : numsNonneg ts.1) : numsNonneg ts'.1 ∧ ∀ v : Int, t = .NUM v → 0 ≤ v := by
  obtain ⟨heq, -⟩ := pull_ok_some h
  constructor
  · intro v hv
    exact hn v (by rw [heq]; exact List.mem_cons_of_mem _ hv)
  · intro v hv
    exact hn v (by rw [heq, hv]; exact List.mem_cons_self _ _)

theorem parse_wf : ∀ fuel : Nat,
    (∀ ts n la ts', parse_f fuel ts = .ok (n, la, ts') → numsNonneg ts.1 →
      WFTree n ∧ numsNonneg ts'.1) ∧
    (∀ n0 tv ts n la ts', parse_t_loop fuel n0 tv ts = .ok (n, la, ts') →
      numsNonneg ts.1 → WFTree n0 → WFTree n ∧ numsNonneg ts'.1) ∧
    (∀ ts n la ts', parse_t fuel ts = .ok (n, la, ts') → numsNonneg ts.1 →
      WFTree n ∧ numsNonneg ts'.1) ∧
    (∀ n0 tv ts n la ts', parse_e_loop fuel n0 tv ts = .ok (n, la, ts') →
      numsNonneg ts.1 → WFTree n0 → WFTree n ∧ numsNonneg ts'.1) ∧
    (∀ ts n la ts', parse_e fuel ts = .ok (n, la, ts') → numsNonneg ts.1 →
      WFTree n ∧ numsNonneg ts'.1) := by
  intro fuel
  induction fuel with
  | zero =>
    refine ⟨?_, ?_, ?_, ?_, ?_⟩
    · intro ts n la ts' h hn; simp [parse_f] at h
    · intro n0 tv ts n la ts' h hn hw0; simp [parse_t_loop] at h
    · intro ts n la ts' h hn; simp [parse_t] at h
    · intro n0 tv ts n la ts' h hn hw0; simp [parse_e_loop] at h
    · intro ts n la ts' h hn; simp [parse_e] at h
  | succ fuel ih =>
    obtain ⟨ihf, ihtl, iht, ihel, ihe⟩ := ih
    have hf : ∀ ts n la ts', parse_f (fuel + 1) ts = .ok (n, la, ts') → numsNonneg ts.1 →
        WFTree n ∧ numsNonneg ts'.1 := by
      intro ts n la ts' h hn
      simp only [parse_f] at h
      split at h
      · simp at h
      · simp at h
      · rename_i x t0 ts1 heq
        obtain ⟨hn1, hv⟩ := pull_nonneg heq hn
        split at h
        · -- NUM v
          rename_i v
          split at h
          · simp at h
          · simp only [Except.ok.injEq, Prod.mk.injEq] at h
            obtain ⟨rfl, rfl, rfl⟩ := h
            exact ⟨.num v (hv v rfl), hn1⟩
          · rename_i y t ts2 heq2
            simp only [Except.ok.injEq, Prod.mk.injEq] at h
            obtain ⟨rfl, rfl, rfl⟩ := h
            exact ⟨.num v (hv v rfl), (pull_nonneg heq2 hn1).1⟩
        · -- SUB
          split at h
          · simp at h
          · simp at h
          · rename_i y t1 ts2 heq2
            obtain ⟨hn2, hv2⟩ := pull_nonneg heq2 hn1
            split at h
            · rename_i v
              split at h
              · simp at h
              · simp only [Except.ok.injEq, Prod.mk.injEq] at h
                obtain ⟨rfl, rfl, rfl⟩ := h
                exact ⟨.neg v (hv2 v rfl), hn2⟩
              · rename_i z t ts3 heq3
                simp only [Except.ok.injEq, Prod.mk.injEq] at h
                obtain ⟨rfl, rfl, rfl⟩ := h
                exact ⟨.neg v (hv2 v rfl), (pull_nonneg heq3 hn2).1⟩
            · simp at h
        · -- LPR
          split at h
          · simp at h
          · rename_i expr ts2 heqE
            obtain ⟨hwE, hn2⟩ := ihe ts1 expr (some .RPR) ts2 heqE hn1
            split at h
            · simp at h
            · simp only [Except.ok.injEq, Prod.mk.injEq] at h
              obtain ⟨rfl, rfl, rfl⟩ := h
              exact ⟨.par hwE, hn2⟩
            · rename_i z t ts3 heq3
              simp only [Except.ok.injEq, Prod.mk.injEq] at h
              obtain ⟨rfl, rfl, rfl⟩ := h
              exact ⟨.par hwE, (pull_nonneg heq3 hn2).1⟩
          · simp at h
        · -- other token
          simp at h
    have htl : ∀ n0 tv ts n la ts', parse_t_loop (fuel + 1) n0 tv ts = .ok (n, la, ts') →
        numsNonneg ts.1 → WFTree n0 → WFTree n ∧ numsNonneg ts'.1 := by
      intro n0 tv ts n la ts' h hn hw0
      simp only [parse_t_loop] at h
      split at h
      · -- MUL
        split at h
        · simp at h
        · rename_i n1 tn ts1 heqF
          obtain ⟨hw1, hn1⟩ := ihf ts n1 tn ts1 heqF hn
          rw [if_pos (rfl : Token.MUL = Token.MUL)] at h
          split at h
          · simp only [Except.ok.injEq, Prod.mk.injEq] at h
            obtain ⟨rfl, rfl, rfl⟩ := h
            exact ⟨.mul hw0 hw1, hn1⟩
          · exact ihtl _ _ ts1 n la ts' h hn1 (.mul hw0 hw1)
      · -- DIV
        split at h
        · simp at h
        · rename_i n1 tn ts1 heqF
          obtain ⟨hw1, hn1⟩ := ihf ts n1 tn ts1 heqF hn
          rw [if_neg (by decide : ¬ (Token.DIV = Token.MUL))] at h
          split at h
          · simp only [Except.ok.injEq, Prod.mk.injEq] at h
            obtain ⟨rfl, rfl, rfl⟩ := h
            exact ⟨.div hw0 hw1, hn1⟩
          · exact ihtl _ _ ts1 n la ts' h hn1 (.div hw0 hw1)
      · -- other operator: loop exits
        simp only [Except.ok.injEq, Prod.mk.injEq] at h
        obtain ⟨rfl, rfl, rfl⟩ := h
        exact ⟨hw0, hn⟩
    have ht : ∀ ts n la ts', parse_t (fuel + 1) ts = .ok (n, la, ts') → numsNonneg ts.1 →
        WFTree n ∧ numsNonneg ts'.1 := by
      intro ts n la ts' h hn
      simp only [parse_t] at h
      split at h
      · simp at h
      · rename_i n0 ts1 heqF
        simp only [Except.ok.injEq, Prod.mk.injEq] at h
        obtain ⟨rfl, rfl, rfl⟩ := h
        exact ihf ts _ _ _ heqF hn
      · rename_i x n0 tv ts1 heqF
        obtain ⟨hw0, hn1⟩ := ihf ts n0 (some tv) ts1 heqF hn
        exact ihtl n0 tv ts1 n la ts' h hn1 hw0
    have hel : ∀ n0 tv ts n la ts', parse_e_loop (fuel + 1) n0 tv ts = .ok (n, la, ts') →
        numsNonneg ts.1 → WFTree n0 → WFTree n ∧ numsNonneg ts'.1 := by
      intro n0 tv ts n la ts' h hn hw0
      simp only [parse_e_loop] at h
      split at h
      · -- ADD
        split at h
        · simp at h
        · rename_i n1 tn ts1 heqT
          obtain ⟨hw1, hn1⟩ := iht ts n1 tn ts1 heqT hn
          rw [if_pos (rfl : Token.ADD = Token.ADD)] at h
          split at h
          · simp only [Except.ok.injEq, Prod.mk.injEq] at h
            obtain ⟨rfl, rfl, rfl⟩ := h
            exact ⟨.add hw0 hw1, hn1⟩
          · exact ihel _ _ ts1 n la ts' h hn1 (.add hw0 hw1)
      · -- SUB
        split at h
        · simp at h
        · rename_i n1 tn ts1 heqT
          obtain ⟨hw1, hn1⟩ := iht ts n1 tn ts1 heqT hn
          rw [if_neg (by decide : ¬ (Token.SUB = Token.ADD))] at h
          split at h
          · simp only [Except.ok.injEq, Prod.mk.injEq] at h
            obtain ⟨rfl, rfl, rfl⟩ := h
            exact ⟨.sub hw0 hw1, hn1⟩
          · exact ihel _ _ ts1 n la ts' h hn1 (.sub hw0 hw1)
      · simp only [Except.ok.injEq, Prod.mk.injEq] at h
        obtain ⟨rfl, rfl, rfl⟩ := h
        exact ⟨hw0, hn⟩
    have he : ∀ ts n la ts', parse_e (fuel + 1) ts = .ok (n, la, ts') → numsNonneg ts.1 →
        WFTree n ∧ numsNonneg ts'.1 := by
      intro ts n la ts' h hn
      simp only [parse_e] at h
      split at h
      · simp at h
      · rename_i n0 ts1 heqT
        simp only [Except.ok.injEq, Prod.mk.injEq] at h
        obtain ⟨rfl, rfl, rfl⟩ := h
        exact iht ts _ _ _ heqT hn
      · rename_i x n0 tv ts1 heqT
        obtain ⟨hw0, hn1⟩ := iht ts n0 (some tv) ts1 heqT hn
        exact ihel n0 tv ts1 n la ts' h hn1 hw0
    exact ⟨hf, htl, ht, hel, he⟩

theorem dval_nonneg (c : Char) : 0 ≤ dval c := Int.natCast_nonneg _

theorem lexNumGo_nonneg (input : List Char) :
    ∀ g i a v j, 0 ≤ a → lexNumGo input g i a = .ok (v, j) → 0 ≤ v := by
  intro g
  induction g with
  | zero => intro i a v j ha h; simp [lexNumGo] at h
  | succ g ih =>
    intro i a v j ha h
    have ha' : 0 ≤ a * 10 + dval (input.get? i).iget := by
      have := dval_nonneg (input.get? i).iget
      omega
    simp only [lexNumGo] at h
    split at h
    · simp at h
    · rename_i c heqc
      split at h
      · split at h
        · rename_i j' heqj
          split at h
          · simp at h
          · rename_i c' heqc'
            split at h
            · have hd : 0 ≤ a * 10 + dval c := by
                have := dval_nonneg c
                omega
              exact ih j' _ v j hd h
            · simp only [Except.ok.injEq, Prod.mk.injEq] at h
              obtain ⟨rfl, rfl⟩ := h
              have := dval_nonneg c
              omega
        · simp only [Except.ok.injEq, Prod.mk.injEq] at h
          obtain ⟨rfl, rfl⟩ := h
          have := dval_nonneg c
          omega
      · simp at h

theorem tfGo_nonneg (input : List Char) :
    ∀ g oi, numsNonneg (tfGo input g oi).1 := by
  intro g
  induction g with
  | zero =>
    intro oi
    cases oi <;> intro v hv <;> simp [tfGo] at hv
  | succ g ih =>
    intro oi
    cases oi with
    | none => intro v hv; simp [tfGo] at hv
    | some i =>
      by_cases hi : i < input.length
      · simp only [tfGo, dif_pos hi]
        repeat' split
        all_goals intro v hv
        all_goals simp at hv
        all_goals try exact ih _ v hv
        -- remaining: the digit NUM cons case
        rename_i w j heqL
        rcases hv with rfl | hv
        · exact lexNumGo_nonneg input input.length i 0 v j (le_refl 0) heqL
        · exact ih _ v hv
      · intro v hv
        simp [tfGo, dif_neg hi] at hv

theorem tokensFrom_nonneg (input : List Char) : numsNonneg (tokensFrom input).1 :=
  tfGo_nonneg input (input.length + 1) (some 0)

theorem evaluate_ok_parse {input : List Char} {n : ASTNode}
    (h : evaluate input = .ok n) :
    ∃ ts', parse_e (parseFuel (tokensFrom input)) (tokensFrom input) =
      .ok (n, none, ts') := by
  simp only [evaluate] at h
  split at h
  · simp at h
  · rename_i n0 ts' heq
    simp only [Except.ok.injEq] at h
    subst h
    exact ⟨ts', heq⟩
  · simp at h

theorem evaluate_ok_wf {input : List Char} {n : ASTNode}
    (h : evaluate input = .ok n) : WFTree n := by
  obtain ⟨ts', hp⟩ := evaluate_ok_parse h
  exact ((parse_wf _).2.2.2.2 _ _ _ _ hp (tokensFrom_nonneg input)).1

theorem toks_len_pos (n : ASTNode) : 1 ≤ (toks n).length := by
  cases n <;> simp [toks]

theorem parse_roundtrip_t {n : ASTNode}
    (hf : ∀ rest fuel, 4 * (toks n).length ≤ fuel →
      parse_f fuel (toks n ++ rest, none) = .ok (rt n, rest.head?, (rest.tail, none))) :
    ∀ (rest : List Token) (fuel : Nat), 4 * (toks n).length + 2 ≤ fuel →
      (∀ t, rest.head? = some t → t ≠ .MUL ∧ t ≠ .DIV) →
      parse_t fuel (toks n ++ rest, none) = .ok (rt n, rest.head?, (rest.tail, none)) := by
  intro rest fuel hfuel hhead
  obtain ⟨f1, rfl⟩ : ∃ k, fuel = k + 1 := ⟨fuel - 1, by omega⟩
  simp only [parse_t]
  rw [hf rest f1 (by omega)]
  cases hrest : rest.head? with
  | none => rfl
  | some tv =>
    obtain ⟨f2, rfl⟩ : ∃ k, f1 = k + 1 := ⟨f1 - 1, by omega⟩
    obtain ⟨h1, h2⟩ := hhead tv hrest
    cases tv with
    | MUL => exact absurd rfl h1
    | DIV => exact absurd rfl h2
    | ADD => rfl
    | SUB => rfl
    | NUM v => rfl
    | LPR => rfl
    | RPR => rfl

theorem parse_roundtrip_e {n : ASTNode}
    (hf : ∀ rest fuel, 4 * (toks n).length ≤ fuel →
      parse_f fuel (toks n ++ rest, none) = .ok (rt n, rest.head?, (rest.tail, none))) :
    ∀ (rest : List Token) (fuel : Nat), 4 * (toks n).length + 3 ≤ fuel →
      (∀ t, rest.head? = some t → t ≠ .ADD ∧ t ≠ .SUB ∧ t ≠ .MUL ∧ t ≠ .DIV) →
      parse_e fuel (toks n ++ rest, none) = .ok (rt n, rest.head?, (rest.tail, none)) := by
  intro rest fuel hfuel hhead
  obtain ⟨f1, rfl⟩ : ∃ k, fuel = k + 1 := ⟨fuel - 1, by omega⟩
  simp only [parse_e]
  rw [parse_roundtrip_t hf rest f1 (by omega)
    (fun t ht => ⟨(hhead t ht).2.2.1, (hhead t ht).2.2.2⟩)]
  cases hrest : rest.head? with
  | none => rfl
  | some tv =>
    obtain ⟨f2, rfl⟩ : ∃ k, f1 = k + 1 := ⟨f1 - 1, by omega⟩
    obtain ⟨h1, h2, h3, h4⟩ := hhead tv hrest
    cases tv with
    | ADD => exact absurd rfl h1
    | SUB => exact absurd rfl h2
    | MUL => exact absurd rfl h3
    | DIV => exact absurd rfl h4
    | NUM v => rfl
    | LPR => rfl
    | RPR => rfl

theorem parse_roundtrip_f {n : ASTNode} (hw : WFTree n) :
    ∀ (rest : List Token) (fuel : Nat), 4 * (toks n).length ≤ fuel →
      parse_f fuel (toks n ++ rest, none) = .ok (rt n, rest.head?, (rest.tail, none)) := by
  induction hw with
  | num v hv =>
    intro rest fuel hfuel
    have hlen : (toks (ASTNode.NumNode v)).length = 1 := by simp [toks]
    rw [hlen] at hfuel
    obtain ⟨k, rfl⟩ : ∃ k, fuel = k + 1 := ⟨fuel - 1, by omega⟩
    cases rest <;> rfl
  | neg v hv =>
    intro rest fuel hfuel
    have hlen : (toks (ASTNode.NegNode (ASTNode.NumNode v))).length = 4 := by simp [toks]
    rw [hlen] at hfuel
    obtain ⟨k, rfl⟩ : ∃ k, fuel = k + 4 := ⟨fuel - 4, by omega⟩
    cases rest <;> rfl
  | par hc ihc =>
    rename_i c
    intro rest fuel hfuel
    have hlen : (toks (ASTNode.ParNode c)).length = (toks c).length + 2 := by simp [toks]
    rw [hlen] at hfuel
    obtain ⟨k, rfl⟩ : ∃ k, fuel = k + 1 := ⟨fuel - 1, by omega⟩
    have hrw : toks (ASTNode.ParNode c) ++ rest =
        Token.LPR :: (toks c ++ (Token.RPR :: rest)) := by
      simp [toks]
    rw [hrw]
    have hE := parse_roundtrip_e ihc (Token.RPR :: rest) k (by omega)
      (by intro t ht; simp at ht; subst ht; refine ⟨?_, ?_, ?_, ?_⟩ <;> simp)
    simp only [parse_f, pull, hE]
    cases rest <;> rfl
  | mul hl hr ihl ihr =>
    rename_i l r
    intro rest fuel hfuel
    have hlen : (toks (ASTNode.MulNode l r)).length =
        (toks l).length + (toks r).length + 3 := by simp [toks]; omega
    rw [hlen] at hfuel
    have hpl := toks_len_pos l
    have hpr := toks_len_pos r
    obtain ⟨k, rfl⟩ : ∃ k, fuel = k + 6 := ⟨fuel - 6, by omega⟩
    have hloop : parse_t_loop (k + 3) (rt l) Token.MUL
        (toks r ++ (Token.RPR :: rest), none) =
        .ok (.MulNode (rt l) (rt r), some .RPR, (rest, none)) := by
      rw [parse_t_loop, ihr (Token.RPR :: rest) (k + 2) (by omega)]
      rfl
    have hT : parse_t (k + 4)
        (toks l ++ (Token.MUL :: (toks r ++ (Token.RPR :: rest))), none) =
        .ok (.MulNode (rt l) (rt r), some .RPR, (rest, none)) := by
      rw [parse_t, ihl (Token.MUL :: (toks r ++ (Token.RPR :: rest))) (k + 3) (by omega)]
      exact hloop
    have hE : parse_e (k + 5)
        (toks l ++ (Token.MUL :: (toks r ++ (Token.RPR :: rest))), none) =
        .ok (.MulNode (rt l) (rt r), some .RPR, (rest, none)) := by
      rw [parse_e, hT]
      rfl
    have hrw : toks (ASTNode.MulNode l r) ++ rest =
        Token.LPR :: (toks l ++ (Token.MUL :: (toks r ++ (Token.RPR :: rest)))) := by
      simp [toks]
    rw [hrw]
    simp only [parse_f, pull, hE]
    cases rest <;> rfl
  | div hl hr ihl ihr =>
    rename_i l r
    intro rest fuel hfuel
    have hlen : (toks (ASTNode.DivNode l r)).length =
        (toks l).length + (toks r).length + 3 := by simp [toks]; omega
    rw [hlen] at hfuel
    have hpl := toks_len_pos l
    have hpr := toks_len_pos r
    obtain ⟨k, rfl⟩ : ∃ k, fuel = k + 6 := ⟨fuel - 6, by omega⟩
    have hloop : parse_t_loop (k + 3) (rt l) Token.DIV
        (toks r ++ (Token.RPR :: rest), none) =
        .ok (.DivNode (rt l) (rt r), some .RPR, (rest, none)) := by
      rw [parse_t_loop, ihr (Token.RPR :: rest) (k + 2) (by omega)]
      rfl
    have hT : parse_t (k + 4)
        (toks l ++ (Token.DIV :: (toks r ++ (Token.RPR :: rest))), none) =
        .ok (.DivNode (rt l) (rt r), some .RPR, (rest, none)) := by
      rw [parse_t, ihl (Token.DIV :: (toks r ++ (Token.RPR :: rest))) (k + 3) (by omega)]
      exact hloop
    have hE : parse_e (k + 5)
        (toks l ++ (Token.DIV :: (toks r ++ (Token.RPR :: rest))), none) =
        .ok (.DivNode (rt l) (rt r), some .RPR, (rest, none)) := by
      rw [parse_e, hT]
      rfl
    have hrw : toks (ASTNode.DivNode l r) ++ rest =
        Token.LPR :: (toks l ++ (Token.DIV :: (toks r ++ (Token.RPR :: rest)))) := by
      simp [toks]
    rw [hrw]
    simp only [parse_f, pull, hE]
    cases rest <;> rfl
  | add hl hr ihl ihr =>
    rename_i l r
    intro rest fuel hfuel
    have hlen : (toks (ASTNode.AddNode l r)).length =
        (toks l).length + (toks r).length + 3 := by simp [toks]; omega
    rw [hlen] at hfuel
    have hpl := toks_len_pos l
    have hpr := toks_len_pos r
    obtain ⟨k, rfl⟩ : ∃ k, fuel = k + 6 := ⟨fuel - 6, by omega⟩
    have hTr := parse_roundtrip_t ihr (Token.RPR :: rest) (k + 3) (by omega)
      (by intro t ht; simp at ht; subst ht; exact ⟨by simp, by simp⟩)
    have hTl := parse_roundtrip_t ihl
      (Token.ADD :: (toks r ++ (Token.RPR :: rest))) (k + 4) (by omega)
      (by intro t ht; simp at ht; subst ht; exact ⟨by simp, by simp⟩)
    have hloop : parse_e_loop (k + 4) (rt l) Token.ADD
        (toks r ++ (Token.RPR :: rest), none) =
        .ok (.AddNode (rt l) (rt r), some .RPR, (rest, none)) := by
      rw [parse_e_loop, hTr]
      rfl
    have hE : parse_e (k + 5)
        (toks l ++ (Token.ADD :: (toks r ++ (Token.RPR :: rest))), none) =
        .ok (.AddNode (rt l) (rt r), some .RPR, (rest, none)) := by
      rw [parse_e, hTl]
      exact hloop
    have hrw : toks (ASTNode.AddNode l r) ++ rest =
        Token.LPR :: (toks l ++ (Token.ADD :: (toks r ++ (Token.RPR :: rest)))) := by
      simp [toks]
    rw [hrw]
    simp only [parse_f, pull, hE]
    cases rest <;> rfl
  | sub hl hr ihl ihr =>
    rename_i l r
    intro rest fuel hfuel
    have hlen : (toks (ASTNode.SubNode l r)).length =
        (toks l).length + (toks r).length + 3 := by simp [toks]; omega
    rw [hlen] at hfuel
    have hpl := toks_len_pos l
    have hpr := toks_len_pos r
    obtain ⟨k, rfl⟩ : ∃ k, fuel = k + 6 := ⟨fuel - 6, by omega⟩
    have hTr := parse_roundtrip_t ihr (Token.RPR :: rest) (k + 3) (by omega)
      (by intro t ht; simp at ht; subst ht; exact ⟨by simp, by simp⟩)
    have hTl := parse_roundtrip_t ihl
      (Token.SUB :: (toks r ++ (Token.RPR :: rest))) (k + 4) (by omega)
      (by intro t ht; simp at ht; subst ht; exact ⟨by simp, by simp⟩)
    have hloop : parse_e_loop (k + 4) (rt l) Token.SUB
        (toks r ++ (Token.RPR :: rest), none) =
        .ok (.SubNode (rt l) (rt r), some .RPR, (rest, none)) := by
      rw [parse_e_loop, hTr]
      rfl
    have hE : parse_e (k + 5)
        (toks l ++ (Token.SUB :: (toks r ++ (Token.RPR :: rest))), none) =
        .ok (.SubNode (rt l) (rt r), some .RPR, (rest, none)) := by
      rw [parse_e, hTl]
      exact hloop
    have hrw : toks (ASTNode.SubNode l r) ++ rest =
        Token.LPR :: (toks l ++ (Token.SUB :: (toks r ++ (Token.RPR :: rest)))) := by
      simp [toks]
    rw [hrw]
    simp only [parse_f, pull, hE]
    cases rest <;> rfl

theorem evalNode_rt (n : ASTNode) : evalNode (rt n) = evalNode n := by
  induction n <;> simp [rt, evalNode, *]

theorem angleToParen_digit {c : Char} (hc : c.isDigit) : angleToParen c = c := by
  have h1 : c ≠ '<' := by rintro rfl; exact absurd hc (by decide)
  have h2 : c ≠ '>' := by rintro rfl; exact absurd hc (by decide)
  simp [angleToParen, h1, h2]

theorem map_angleToParen_digits {l : List Char} (hl : ∀ c ∈ l, c.isDigit) :
    l.map angleToParen = l := by
  induction l with
  | nil => rfl
  | cons c cs ih =>
    rw [List.map_cons, angleToParen_digit (hl c (by simp)),
      ih (fun x hx => hl x (by simp [hx]))]

theorem intRepr_nonneg {v : Int} (hv : 0 ≤ v) : intRepr v = natDigits v.toNat := by
  simp [intRepr, not_lt.2 hv]

theorem reprNode_ne_nil (n : ASTNode) : reprNode n ≠ [] := by
  cases n with
  | NumNode v =>
    simp only [reprNode, intRepr]
    split
    · simp
    · exact natDigits_ne_nil _
  | NegNode c => simp [reprNode]
  | ParNode c => simp [reprNode]
  | MulNode l r => simp [reprNode]
  | DivNode l r => simp [reprNode]
  | AddNode l r => simp [reprNode]
  | SubNode l r => simp [reprNode]

theorem reprNode_mapped_good {n : ASTNode} (hw : WFTree n) :
    ∀ c ∈ (reprNode n).map angleToParen, goodChar c := by
  induction hw with
  | num v hv =>
    intro c hc
    rw [reprNode, intRepr_nonneg hv,
      map_angleToParen_digits (natDigits_all_digits _)] at hc
    have := natDigits_all_digits v.toNat c hc
    simp [goodChar, this]
  | neg v hv =>
    intro c hc
    simp only [reprNode, List.map_cons, List.map_append] at hc
    simp at hc
    rcases hc with rfl | rfl | hc | rfl
    · decide
    · decide
    · obtain ⟨a, ha, rfl⟩ := hc
      rw [intRepr_nonneg hv] at ha
      rw [angleToParen_digit (natDigits_all_digits _ a ha)]
      have := natDigits_all_digits v.toNat a ha
      simp [goodChar, this]
    · decide
  | par hc ih =>
    intro c hcm
    simp only [reprNode, List.map_cons, List.map_append] at hcm
    simp at hcm
    rcases hcm with rfl | hc2 | rfl
    · decide
    · exact ih c (by simpa using hc2)
    · decide
  | mul hl hr ihl ihr =>
    intro c hcm
    simp only [reprNode, List.map_cons, List.map_append] at hcm
    simp at hcm
    rcases hcm with rfl | hc2 | rfl | hc2 | rfl
    · decide
    · exact ihl c (by simpa using hc2)
    · decide
    · exact ihr c (by simpa using hc2)
    · decide
  | div hl hr ihl ihr =>
    intro c hcm
    simp only [reprNode, List.map_cons, List.map_append] at hcm
    simp at hcm
    rcases hcm with rfl | hc2 | rfl | hc2 | rfl
    · decide
    · exact ihl c (by simpa using hc2)
    · decide
    · exact ihr c (by simpa using hc2)
    · decide
  | add hl hr ihl ihr =>
    intro c hcm
    simp only [reprNode, List.map_cons, List.map_append] at hcm
    simp at hcm
    rcases hcm with rfl | hc2 | rfl | hc2 | rfl
    · decide
    · exact ihl c (by simpa using hc2)
    · decide
    · exact ihr c (by simpa using hc2)
    · decide
  | sub hl hr ihl ihr =>
    intro c hcm
    simp only [reprNode, List.map_cons, List.map_append] at hcm
    simp at hcm
    rcases hcm with rfl | hc2 | rfl | hc2 | rfl
    · decide
    · exact ihl c (by simpa using hc2)
    · decide
    · exact ihr c (by simpa using hc2)
    · decide

theorem lexToks_LPR (cs : List Char) : lexToks ('(' :: cs) = .LPR :: lexToks cs := by
  simp [lexToks]

theorem lexToks_RPR (cs : List Char) : lexToks (')' :: cs) = .RPR :: lexToks cs := by
  simp [lexToks]

theorem lexToks_ADD (cs : List Char) : lexToks ('+' :: cs) = .ADD :: lexToks cs := by
  simp [lexToks]

theorem lexToks_SUB (cs : List Char) : lexToks ('-' :: cs) = .SUB :: lexToks cs := by
  simp [lexToks]

theorem lexToks_MUL (cs : List Char) : lexToks ('*' :: cs) = .MUL :: lexToks cs := by
  simp [lexToks]

theorem lexToks_DIV (cs : List Char) : lexToks ('/' :: cs) = .DIV :: lexToks cs := by
  simp [lexToks]

theorem lexToks_natDigits (m : Nat) (B : List Char)
    (hB : ∀ c, B.head? = some c → ¬ c.isDigit) :
    lexToks (natDigits m ++ B) = .NUM (m : Int) :: lexToks B := by
  obtain ⟨d, ds, hds⟩ := List.exists_cons_of_ne_nil (natDigits_ne_nil m)
  have hd : d.isDigit := natDigits_all_digits m d (by rw [hds]; simp)
  have hdigs : ∀ c ∈ ds, c.isDigit := by
    intro c hc
    exact natDigits_all_digits m c (by rw [hds]; simp [hc])
  rw [hds, List.cons_append, lexToks_digit hd,
    lexNumS_append ds (dval d) B hdigs hB]
  have hval : List.foldl (fun x c => x * 10 + dval c) (dval d) ds = (m : Int) := by
    have h0 : List.foldl (fun x c => x * 10 + dval c) ((0 : Nat) : Int) (d :: ds) =
        List.foldl (fun x c => x * 10 + dval c) (dval d) ds := by
      simp
    rw [← h0, foldl_int_eq_nat]
    have : (d :: ds).foldl (fun a c => a * 10 + (c.toNat - 48)) 0 = digitsVal (d :: ds) := rfl
    rw [this, ← hds, digitsVal_natDigits]
  rw [hval]

theorem lexToks_reprNode {n : ASTNode} (hw : WFTree n) :
    ∀ B : List Char, (∀ c, B.head? = some c → ¬ c.isDigit) →
      lexToks ((reprNode n).map angleToParen ++ B) = toks n ++ lexToks B := by
  induction hw with
  | num v hv =>
    intro B hB
    rw [reprNode, intRepr_nonneg hv, map_angleToParen_digits (natDigits_all_digits _),
      lexToks_natDigits _ _ hB, Int.toNat_of_nonneg hv]
    rfl
  | neg v hv =>
    intro B hB
    have hrw : (reprNode (ASTNode.NegNode (ASTNode.NumNode v))).map angleToParen ++ B =
        '(' :: ('-' :: (natDigits v.toNat ++ (')' :: B))) := by
      simp only [reprNode, intRepr_nonneg hv, List.map_cons, List.map_append]
      rw [map_angleToParen_digits (natDigits_all_digits _)]
      simp [angleToParen]
    rw [hrw, lexToks_LPR, lexToks_SUB,
      lexToks_natDigits _ _ (by intro c hc; simp at hc; subst hc; decide),
      lexToks_RPR, Int.toNat_of_nonneg hv]
    rfl
  | par hc ih =>
    rename_i c
    intro B hB
    have hrw : (reprNode (ASTNode.ParNode c)).map angleToParen ++ B =
        '(' :: ((reprNode c).map angleToParen ++ (')' :: B)) := by
      simp [reprNode, angleToParen]
    rw [hrw, lexToks_LPR, ih (')' :: B) (by intro x hx; simp at hx; subst hx; decide),
      lexToks_RPR]
    simp [toks]
  | mul hl hr ihl ihr =>
    rename_i l r
    intro B hB
    have hrw : (reprNode (ASTNode.MulNode l r)).map angleToParen ++ B =
        '(' :: ((reprNode l).map angleToParen ++
          ('*' :: ((reprNode r).map angleToParen ++ (')' :: B)))) := by
      simp [reprNode, angleToParen]
    rw [hrw, lexToks_LPR,
      ihl ('*' :: ((reprNode r).map angleToParen ++ (')' :: B)))
        (by intro x hx; simp at hx; subst hx; decide),
      lexToks_MUL, ihr (')' :: B) (by intro x hx; simp at hx; subst hx; decide),
      lexToks_RPR]
    simp [toks]
  | div hl hr ihl ihr =>
    rename_i l r
    intro B hB
    have hrw : (reprNode (ASTNode.DivNode l r)).map angleToParen ++ B =
        '(' :: ((reprNode l).map angleToParen ++
          ('/' :: ((reprNode r).map angleToParen ++ (')' :: B)))) := by
      simp [reprNode, angleToParen]
    rw [hrw, lexToks_LPR,
      ihl ('/' :: ((reprNode r).map angleToParen ++ (')' :: B)))
        (by intro x hx; simp at hx; subst hx; decide),
      lexToks_DIV, ihr (')' :: B) (by intro x hx; simp at hx; subst hx; decide),
      lexToks_RPR]
    simp [toks]
  | add hl hr ihl ihr =>
    rename_i l r
    intro B hB
    have hrw : (reprNode (ASTNode.AddNode l r)).map angleToParen ++ B =
        '(' :: ((reprNode l).map angleToParen ++
          ('+' :: ((reprNode r).map angleToParen ++ (')' :: B)))) := by
      simp [reprNode, angleToParen]
    rw [hrw, lexToks_LPR,
      ihl ('+' :: ((reprNode r).map angleToParen ++ (')' :: B)))
        (by intro x hx; simp at hx; subst hx; decide),
      lexToks_ADD, ihr (')' :: B) (by intro x hx; simp at hx; subst hx; decide),
      lexToks_RPR]
    simp [toks]
  | sub hl hr ihl ihr =>
    rename_i l r
    intro B hB
    have hrw : (reprNode (ASTNode.SubNode l r)).map angleToParen ++ B =
        '(' :: ((reprNode l).map angleToParen ++
          ('-' :: ((reprNode r).map angleToParen ++ (')' :: B)))) := by
      simp [reprNode, angleToParen]
    rw [hrw, lexToks_LPR,
      ihl ('-' :: ((reprNode r).map angleToParen ++ (')' :: B)))
        (by intro x hx; simp at hx; subst hx; decide),
      lexToks_SUB, ihr (')' :: B) (by intro x hx; simp at hx; subst hx; decide),
      lexToks_RPR]
    simp [toks]

theorem tokensFrom_reprNode {n : ASTNode} (hw : WFTree n) :
    tokensFrom ((reprNode n).map angleToParen) = (toks n, none) := by
  have hne : (reprNode n).map angleToParen ≠ [] := by
    simp [reprNode_ne_nil n]
  rw [tokensFrom_eq_lexToks _ (reprNode_mapped_good hw) hne]
  have h := lexToks_reprNode hw [] (by intro c hc; simp at hc)
  have h2 : lexToks ([] : List Char) = [] := by rw [lexToks]
  rw [h2, List.append_nil] at h
  simpa using h

theorem evaluate_reprNode {n : ASTNode} (hw : WFTree n) :
    evaluate ((reprNode n).map angleToParen) = .ok (rt n) := by
  have hE : parse_e (parseFuel (toks n, none)) (toks n, none) =
      .ok (rt n, none, ([], none)) := by
    have h := parse_roundtrip_e (parse_roundtrip_f hw) [] (parseFuel (toks n, none))
      (by simp only [parseFuel]; omega) (by intro t ht; simp at ht)
    simpa using h
  simp only [evaluate, tokensFrom_reprNode hw, hE]

theorem lexToks_digits (ds : List Char) (h0 : ds ≠ []) (hd : ∀ c ∈ ds, c.isDigit) :
    lexToks ds = [.NUM ((digitsVal ds : Nat) : Int)] := by
  obtain ⟨d, ds', rfl⟩ := List.exists_cons_of_ne_nil h0
  have hdd : d.isDigit := hd d (by simp)
  have hds' : ∀ c ∈ ds', c.isDigit := fun c hc => hd c (by simp [hc])
  rw [lexToks_digit hdd]
  have happ : lexNumS ds' (dval d) =
      (List.foldl (fun x c => x * 10 + dval c) (dval d) ds', []) := by
    have h := lexNumS_append ds' (dval d) [] hds' (by intro c hc; simp at hc)
    simpa using h
  rw [happ]
  have hval : List.foldl (fun x c => x * 10 + dval c) (dval d) ds' =
      ((digitsVal (d :: ds') : Nat) : Int) := by
    have h0' : List.foldl (fun x c => x * 10 + dval c) ((0 : Nat) : Int) (d :: ds') =
        List.foldl (fun x c => x * 10 + dval c) (dval d) ds' := by
      simp
    rw [← h0', foldl_int_eq_nat]
    rfl
  rw [hval, lexToks]

/-- Claim C4: for every input that `evaluate` accepts, re-evaluating the
rendered string with the rendering's `<`/`>` brackets read as ordinary
parentheses succeeds and yields the same evaluation outcome (in particular
the same numeric value) as the original input. -/
theorem claim_C4 :
    (∀ (input : List Char) (n : ASTNode), evaluate input = .ok n →
      ∃ n', evaluate ((reprNode n).map angleToParen) = .ok n' ∧
        evalNode n' = evalNode n) ∧
    (∀ (input : List Char) (v : Int) (s : List Char), runFull input = .ok (v, s) →
      ∃ s', runFull (s.map angleToParen) = .ok (v, s')) := by
  constructor
  · intro input n h
    exact ⟨rt n, evaluate_reprNode (evaluate_ok_wf h), evalNode_rt n⟩
  · intro input v s h
    simp only [runFull] at h
    split at h
    · simp at h
    · rename_i n heval
      split at h
      · simp at h
      · rename_i w hw2
        simp only [Except.ok.injEq, Prod.mk.injEq] at h
        obtain ⟨rfl, rfl⟩ := h
        have hwf := evaluate_ok_wf heval
        refine ⟨reprNode (rt n), ?_⟩
        simp only [runFull, evaluate_reprNode hwf, evalNode_rt, hw2]

/-- Witness for claim C4: the roundtrip at the accepted input `"1+2"`. -/
theorem claim_C4_witness :
    ∃ n', evaluate ((reprNode (.AddNode (.NumNode 1) (.NumNode 2))).map angleToParen) =
        .ok n' ∧
      evalNode n' = evalNode (.AddNode (.NumNode 1) (.NumNode 2)) :=
  claim_C4.1 "1+2".toList (.AddNode (.NumNode 1) (.NumNode 2)) (by decide)

/-- Claim C2 as amended: for every input consisting solely of an integer
literal *not* preceded by whitespace, `evaluate` returns that literal's value
and the rendered string equals the literal's digits with leading zeros
removed (equal to the literal's digits whenever it has no redundant leading
zeros); whitespace between tokens and trailing whitespace is insignificant:
`"12   +   3 "` evaluates to `15`. -/
theorem claim_C2 :
    (∀ ds : List Char, ds ≠ [] → (∀ c ∈ ds, c.isDigit) →
      runFull ds = .ok ((digitsVal ds : Nat), natDigits (digitsVal ds))) ∧
    (∀ ds : List Char, ds ≠ [] → (∀ c ∈ ds, c.isDigit) → noLeadingZero ds →
      runFull ds = .ok ((digitsVal ds : Nat), ds)) ∧
    calcValue "12   +   3 ".toList = .ok 15 := by
  have part1 : ∀ ds : List Char, ds ≠ [] → (∀ c ∈ ds, c.isDigit) →
      runFull ds = .ok ((digitsVal ds : Nat), natDigits (digitsVal ds)) := by
    intro ds h0 hd
    have hgood : ∀ c ∈ ds, goodChar c := by
      intro c hc
      simp [goodChar, hd c hc]
    have htok : tokensFrom ds = ([.NUM ((digitsVal ds : Nat) : Int)], none) := by
      rw [tokensFrom_eq_lexToks ds hgood h0, lexToks_digits ds h0 hd]
    have heval : evaluate ds = .ok (.NumNode ((digitsVal ds : Nat) : Int)) := by
      simp only [evaluate, htok]
      rfl
    simp only [runFull, heval]
    have hrepr : reprNode (.NumNode ((digitsVal ds : Nat) : Int)) =
        natDigits (digitsVal ds) := by
      rw [reprNode, intRepr_nonneg (by positivity), Int.toNat_natCast]
    simp only [evalNode, hrepr]
  refine ⟨part1, ?_, by decide⟩
  intro ds h0 hd hz
  rcases hz with rfl | hz
  · have h := part1 ['0'] (by simp) (by decide)
    simpa using h
  · rw [part1 ds h0 hd, natDigits_digitsVal_aux ds h0 hd hz]

/-- Witness for claim C2: the literal `"42"`. -/
theorem claim_C2_witness :
    runFull "42".toList = .ok ((digitsVal "42".toList : Nat), "42".toList) :=
  claim_C2.2.1 "42".toList (by decide) (by decide) (Or.inr (by decide))

theorem pull_error {ts : TS} {e : Err} (h : pull ts = .error e) : ts.2 = some e := by
  obtain ⟨l, e0⟩ := ts
  cases l with
  | nil =>
    cases e0 with
    | none => simp [pull] at h
    | some e1 => simp only [pull, Except.error.injEq] at h; simp [h]
  | cons x xs => simp [pull] at h

theorem pull_ok_none {ts : TS} (h : pull ts = .ok none) : ts = ([], none) := by
  obtain ⟨l, e0⟩ := ts
  cases l with
  | nil => cases e0 with
    | none => rfl
    | some e1 => simp [pull] at h
  | cons x xs => simp [pull] at h

theorem lexNumGo_ok_bounds (input : List Char) :
    ∀ g i a v j, lexNumGo input g i a = .ok (v, j) → i ≤ j ∧ j < input.length := by
  intro g
  induction g with
  | zero => intro i a v j h; simp [lexNumGo] at h
  | succ g ih =>
    intro i a v j h
    simp only [lexNumGo] at h
    split at h
    · simp at h
    · rename_i c heqc
      have hi : i < input.length := by
        by_contra hge
        rw [List.get?_eq_none.2 (by omega)] at heqc
        cases heqc
      split at h
      · split at h
        · rename_i j' heqj
          split at h
          · simp at h
          · rename_i c' heqc'
            split at h
            · have hj' := nextIdxGo_some_lt input input.length i j' heqj
              have := ih j' _ v j h
              omega
            · simp only [Except.ok.injEq, Prod.mk.injEq] at h
              obtain ⟨rfl, rfl⟩ := h
              omega
        · simp only [Except.ok.injEq, Prod.mk.injEq] at h
          obtain ⟨rfl, rfl⟩ := h
          omega
      · simp at h

theorem lexNumGo_no_fuel (input : List Char) :
    ∀ g i a, i < input.length → input.length - i ≤ g →
      lexNumGo input g i a ≠ .error .outOfFuel := by
  intro g
  induction g with
  | zero => intro i a hi hg; omega
  | succ g ih =>
    intro i a hi hg h
    simp only [lexNumGo] at h
    split at h
    · simp at h
    · rename_i c heqc
      split at h
      · split at h
        · rename_i j' heqj
          split at h
          · simp at h
          · rename_i c' heqc'
            split at h
            · have hj' := nextIdxGo_some_lt input input.length i j' heqj
              exact ih j' _ hj'.2 (by omega) h
            · simp at h
        · simp at h
      · simp at h

theorem tfGo_no_fuel (input : List Char) :
    ∀ g oi, (∀ i, oi = some i → input.length - i < g) →
      (tfGo input g oi).2 ≠ some .outOfFuel := by
  intro g
  induction g with
  | zero =>
    intro oi hb
    cases oi with
    | none => simp [tfGo]
    | some i => have := hb i rfl; omega
  | succ g ih =>
    intro oi hb
    cases oi with
    | none => simp [tfGo]
    | some i =>
      have hbi := hb i rfl
      by_cases hi : i < input.length
      · simp only [tfGo, dif_pos hi]
        have hnext : ∀ j, i ≤ j → j < input.length →
            (tfGo input g (nextIdx input j)).2 ≠ some .outOfFuel := by
          intro j hij hj
          apply ih
          intro i2 hi2
          have := nextIdxGo_some_lt input input.length j i2 hi2
          omega
        split
        · exact hnext i le_rfl hi
        · split
          · exact hnext i le_rfl hi
          · split
            · exact hnext i le_rfl hi
            · split
              · exact hnext i le_rfl hi
              · split
                · exact hnext i le_rfl hi
                · split
                  · exact hnext i le_rfl hi
                  · split
                    · split
                      · rename_i e heqL
                        intro hcon
                        simp only [] at hcon
                        obtain rfl : e = Err.outOfFuel := by simpa using hcon
                        exact lexNumGo_no_fuel input input.length i 0 hi (by omega) heqL
                      · rename_i v j heqL
                        have hj := lexNumGo_ok_bounds input input.length i 0 v j heqL
                        exact hnext j hj.1 hj.2
                    · simp
      · simp [tfGo, dif_neg hi]

theorem tokensFrom_no_fuel (input : List Char) :
    (tokensFrom input).2 ≠ some .outOfFuel :=
  tfGo_no_fuel input (input.length + 1) (some 0) (by intro i hi; cases hi; omega)

theorem parse_fuel_sufficient : ∀ fuel : Nat,
    (∀ ts r, parse_f fuel ts = r → 4 * ts.1.length + 1 ≤ fuel →
      ts.2 ≠ some .outOfFuel →
      (r = .error .outOfFuel → False) ∧
      (∀ n la ts', r = .ok (n, la, ts') → ts'.2 = ts.2 ∧
        ts'.1.length + 1 ≤ ts.1.length ∧
        (la ≠ none → ts'.1.length + 2 ≤ ts.1.length))) ∧
    (∀ n0 tv ts r, parse_t_loop fuel n0 tv ts = r → 4 * ts.1.length + 2 ≤ fuel →
      ts.2 ≠ some .outOfFuel →
      (r = .error .outOfFuel → False) ∧
      (∀ n la ts', r = .ok (n, la, ts') → ts'.2 = ts.2 ∧
        ts'.1.length ≤ ts.1.length)) ∧
    (∀ ts r, parse_t fuel ts = r → 4 * ts.1.length + 2 ≤ fuel →
      ts.2 ≠ some .outOfFuel →
      (r = .error .outOfFuel → False) ∧
      (∀ n la ts', r = .ok (n, la, ts') → ts'.2 = ts.2 ∧
        ts'.1.length + 1 ≤ ts.1.length ∧
        (la ≠ none → ts'.1.length + 2 ≤ ts.1.length))) ∧
    (∀ n0 tv ts r, parse_e_loop fuel n0 tv ts = r → 4 * ts.1.length + 3 ≤ fuel →
      ts.2 ≠ some .outOfFuel →
      (r = .error .outOfFuel → False) ∧
      (∀ n la ts', r = .ok (n, la, ts') → ts'.2 = ts.2 ∧
        ts'.1.length ≤ ts.1.length)) ∧
    (∀ ts r, parse_e fuel ts = r → 4 * ts.1.length + 3 ≤ fuel →
      ts.2 ≠ some .outOfFuel →
      (r = .error .outOfFuel → False) ∧
      (∀ n la ts', r = .ok (n, la, ts') → ts'.2 = ts.2 ∧
        ts'.1.length + 1 ≤ ts.1.length ∧
        (la ≠ none → ts'.1.length + 2 ≤ ts.1.length))) := by
  intro fuel
  induction fuel with
  | zero =>
    refine ⟨?_, ?_, ?_, ?_, ?_⟩
    · intro ts r _ hfuel; omega
    · intro n0 tv ts r _ hfuel; omega
    · intro ts r _ hfuel; omega
    · intro n0 tv ts r _ hfuel; omega
    · intro ts r _ hfuel; omega
  | succ fuel ih =>
    obtain ⟨ihf, ihtl, iht, ihel, ihe⟩ := ih
    have hf : ∀ ts r, parse_f (fuel + 1) ts = r → 4 * ts.1.length + 1 ≤ fuel + 1 →
        ts.2 ≠ some .outOfFuel →
        (r = .error .outOfFuel → False) ∧
        (∀ n la ts', r = .ok (n, la, ts') → ts'.2 = ts.2 ∧
          ts'.1.length + 1 ≤ ts.1.length ∧
          (la ≠ none → ts'.1.length + 2 ≤ ts.1.length)) := by
      intro ts r hr hfuel hts
      simp only [parse_f] at hr
      split at hr
      · -- pull error
        rename_i e hp
        subst hr
        have he := pull_error hp
        refine ⟨?_, by intro n la ts' h; simp at h⟩
        intro h
        simp at h
        subst h
        exact hts he
      · subst hr
        exact ⟨by intro h; simp at h, by intro n la ts' h; simp at h⟩
      · rename_i x t0 ts1 hp
        obtain ⟨hlen1, hts1⟩ := pull_ok_some hp
        have hts1' : ts1.2 ≠ some Err.outOfFuel := by rw [← hts1]; exact hts
        have hL1 : ts1.1.length + 1 = ts.1.length := by rw [hlen1]; rfl
        split at hr
        · -- NUM
          split at hr
          · rename_i e hp2
            subst hr
            have he := pull_error hp2
            refine ⟨?_, by intro n la ts' h; simp at h⟩
            intro h
            simp at h
            subst h
            exact hts1' he
          · subst hr
            refine ⟨by intro h; simp at h, ?_⟩
            intro n la ts' h
            simp only [Except.ok.injEq, Prod.mk.injEq] at h
            obtain ⟨rfl, rfl, rfl⟩ := h
            exact ⟨hts1.symm, by omega, by intro hcon; exact absurd rfl hcon⟩
          · rename_i y t ts2 hp2
            obtain ⟨hlen2, hts2⟩ := pull_ok_some hp2
            have hL2 : ts2.1.length + 1 = ts1.1.length := by rw [hlen2]; rfl
            subst hr
            refine ⟨by intro h; simp at h, ?_⟩
            intro n la ts' h
            simp only [Except.ok.injEq, Prod.mk.injEq] at h
            obtain ⟨rfl, rfl, rfl⟩ := h
            exact ⟨by rw [← hts2, ← hts1], by omega, by intro _; omega⟩
        · -- SUB
          split at hr
          · rename_i e hp2
            subst hr
            have he := pull_error hp2
            refine ⟨?_, by intro n la ts' h; simp at h⟩
            intro h
            simp at h
            subst h
            exact hts1' he
          · subst hr
            exact ⟨by intro h; simp at h, by intro n la ts' h; simp at h⟩
          · rename_i y t1 ts2 hp2
            obtain ⟨hlen2, hts2⟩ := pull_ok_some hp2
            have hts2' : ts2.2 ≠ some Err.outOfFuel := by rw [← hts2]; exact hts1'
            have hL2 : ts2.1.length + 1 = ts1.1.length := by rw [hlen2]; rfl
            split at hr
            · rename_i v
              split at hr
              · rename_i e hp3
                subst hr
                have he := pull_error hp3
                refine ⟨?_, by intro n la ts' h; simp at h⟩
                intro h
                simp at h
                subst h
                exact hts2' he
              · subst hr
                refine ⟨by intro h; simp at h, ?_⟩
                intro n la ts' h
                simp only [Except.ok.injEq, Prod.mk.injEq] at h
                obtain ⟨rfl, rfl, rfl⟩ := h
                exact ⟨by rw [← hts2, ← hts1], by omega,
                  by intro hcon; exact absurd rfl hcon⟩
              · rename_i z t ts3 hp3
                obtain ⟨hlen3, hts3⟩ := pull_ok_some hp3
                have hL3 : ts3.1.length + 1 = ts2.1.length := by rw [hlen3]; rfl
                subst hr
                refine ⟨by intro h; simp at h, ?_⟩
                intro n la ts' h
                simp only [Except.ok.injEq, Prod.mk.injEq] at h
                obtain ⟨rfl, rfl, rfl⟩ := h
                exact ⟨by rw [← hts3, ← hts2, ← hts1], by omega, by intro _; omega⟩
            · subst hr
              exact ⟨by intro h; simp at h, by intro n la ts' h; simp at h⟩
        · -- LPR
          split at hr
          · rename_i e heqE
            subst hr
            have hE := (ihe ts1 (.error e) heqE (by omega) hts1').1
            refine ⟨?_, by intro n la ts' h; simp at h⟩
            intro h
            simp at h
            subst h
            exact hE rfl
          · rename_i expr ts2 heqE
            obtain ⟨hts2, hlen2, hla2⟩ :=
              (ihe ts1 _ heqE (by omega) hts1').2 expr (some .RPR) ts2 rfl
            have hts2' : ts2.2 ≠ some Err.outOfFuel := by rw [hts2]; exact hts1'
            have hL2 : ts2.1.length + 2 ≤ ts1.1.length := hla2 (by simp)
            split at hr
            · rename_i e hp3
              subst hr
              have he := pull_error hp3
              refine ⟨?_, by intro n la ts' h; simp at h⟩
              intro h
              simp at h
              subst h
              exact hts2' he
            · subst hr
              refine ⟨by intro h; simp at h, ?_⟩
              intro n la ts' h
              simp only [Except.ok.injEq, Prod.mk.injEq] at h
              obtain ⟨rfl, rfl, rfl⟩ := h
              exact ⟨by rw [hts2, hts1], by omega,
                by intro hcon; exact absurd rfl hcon⟩
            · rename_i z t ts3 hp3
              obtain ⟨hlen3, hts3⟩ := pull_ok_some hp3
              have hL3 : ts3.1.length + 1 = ts2.1.length := by rw [hlen3]; rfl
              subst hr
              refine ⟨by intro h; simp at h, ?_⟩
              intro n la ts' h
              simp only [Except.ok.injEq, Prod.mk.injEq] at h
              obtain ⟨rfl, rfl, rfl⟩ := h
              exact ⟨by rw [← hts3, hts2, hts1], by omega, by intro _; omega⟩
          · subst hr
            exact ⟨by intro h; simp at h, by intro n la ts' h; simp at h⟩
        · subst hr
          exact ⟨by intro h; simp at h, by intro n la ts' h; simp at h⟩
    have htl : ∀ n0 tv ts r, parse_t_loop (fuel + 1) n0 tv ts = r →
        4 * ts.1.length + 2 ≤ fuel + 1 → ts.2 ≠ some .outOfFuel →
        (r = .error .outOfFuel → False) ∧
        (∀ n la ts', r = .ok (n, la, ts') → ts'.2 = ts.2 ∧
          ts'.1.length ≤ ts.1.length) := by
      intro n0 tv ts r hr hfuel hts
      simp only [parse_t_loop] at hr
      split at hr
      · -- MUL
        split at hr
        · rename_i e heqF
          subst hr
          have hF := (ihf ts (.error e) heqF (by omega) hts).1
          refine ⟨?_, by intro n la ts' h; simp at h⟩
          intro h
          simp at h
          subst h
          exact hF rfl
        · rename_i n1 tn ts1 heqF
          obtain ⟨hts1, hlen1, hla1⟩ := (ihf ts _ heqF (by omega) hts).2 n1 tn ts1 rfl
          have hts1' : ts1.2 ≠ some Err.outOfFuel := by rw [hts1]; exact hts
          split at hr
          · subst hr
            refine ⟨by intro h; simp at h, ?_⟩
            intro n la ts' h
            simp only [Except.ok.injEq, Prod.mk.injEq] at h
            obtain ⟨rfl, rfl, rfl⟩ := h
            exact ⟨hts1, by omega⟩
          · rename_i tv2
            have hL1 : ts1.1.length + 2 ≤ ts.1.length := hla1 (by simp)
            have hrec := ihtl _ tv2 ts1 r hr (by omega) hts1'
            refine ⟨hrec.1, ?_⟩
            intro n la ts' h
            obtain ⟨h2, h3⟩ := hrec.2 n la ts' h
            exact ⟨by rw [h2, hts1], by omega⟩
      · -- DIV
        split at hr
        · rename_i e heqF
          subst hr
          have hF := (ihf ts (.error e) heqF (by omega) hts).1
          refine ⟨?_, by intro n la ts' h; simp at h⟩
          intro h
          simp at h
          subst h
          exact hF rfl
        · rename_i n1 tn ts1 heqF
          obtain ⟨hts1, hlen1, hla1⟩ := (ihf ts _ heqF (by omega) hts).2 n1 tn ts1 rfl
          have hts1' : ts1.2 ≠ some Err.outOfFuel := by rw [hts1]; exact hts
          split at hr
          · subst hr
            refine ⟨by intro h; simp at h, ?_⟩
            intro n la ts' h
            simp only [Except.ok.injEq, Prod.mk.injEq] at h
            obtain ⟨rfl, rfl, rfl⟩ := h
            exact ⟨hts1, by omega⟩
          · rename_i tv2
            have hL1 : ts1.1.length + 2 ≤ ts.1.length := hla1 (by simp)
            have hrec := ihtl _ tv2 ts1 r hr (by omega) hts1'
            refine ⟨hrec.1, ?_⟩
            intro n la ts' h
            obtain ⟨h2, h3⟩ := hrec.2 n la ts' h
            exact ⟨by rw [h2, hts1], by omega⟩
      · subst hr
        refine ⟨by intro h; simp at h, ?_⟩
        intro n la ts' h
        simp only [Except.ok.injEq, Prod.mk.injEq] at h
        obtain ⟨rfl, rfl, rfl⟩ := h
        exact ⟨rfl, le_rfl⟩
    have ht : ∀ ts r, parse_t (fuel + 1) ts = r → 4 * ts.1.length + 2 ≤ fuel + 1 →
        ts.2 ≠ some .outOfFuel →
        (r = .error .outOfFuel → False) ∧
        (∀ n la ts', r = .ok (n, la, ts') → ts'.2 = ts.2 ∧
          ts'.1.length + 1 ≤ ts.1.length ∧
          (la ≠ none → ts'.1.length + 2 ≤ ts.1.length)) := by
      intro ts r hr hfuel hts
      simp only [parse_t] at hr
      split at hr
      · rename_i e heqF
        subst hr
        have hF := (ihf ts (.error e) heqF (by omega) hts).1
        refine ⟨?_, by intro n la ts' h; simp at h⟩
        intro h
        simp at h
        subst h
        exact hF rfl
      · rename_i n1 ts1 heqF
        obtain ⟨hts1, hlen1, -⟩ := (ihf ts _ heqF (by omega) hts).2 n1 none ts1 rfl
        subst hr
        refine ⟨by intro h; simp at h, ?_⟩
        intro n la ts' h
        simp only [Except.ok.injEq, Prod.mk.injEq] at h
        obtain ⟨rfl, rfl, rfl⟩ := h
        exact ⟨hts1, by omega, by intro hcon; exact absurd rfl hcon⟩
      · rename_i x n1 tv ts1 heqF
        obtain ⟨hts1, hlen1, hla1⟩ := (ihf ts _ heqF (by omega) hts).2 n1 (some tv) ts1 rfl
        have hts1' : ts1.2 ≠ some Err.outOfFuel := by rw [hts1]; exact hts
        have hL1 : ts1.1.length + 2 ≤ ts.1.length := hla1 (by simp)
        have hrec := ihtl n1 tv ts1 r hr (by omega) hts1'
        refine ⟨hrec.1, ?_⟩
        intro n la ts' h
        obtain ⟨h2, h3⟩ := hrec.2 n la ts' h
        refine ⟨by rw [h2, hts1], by omega, by intro _; omega⟩
    have hel : ∀ n0 tv ts r, parse_e_loop (fuel + 1) n0 tv ts = r →
        4 * ts.1.length + 3 ≤ fuel + 1 → ts.2 ≠ some .outOfFuel →
        (r = .error .outOfFuel → False) ∧
        (∀ n la ts', r = .ok (n, la, ts') → ts'.2 = ts.2 ∧
          ts'.1.length ≤ ts.1.length) := by
      intro n0 tv ts r hr hfuel hts
      simp only [parse_e_loop] at hr
      split at hr
      · -- ADD
        split at hr
        · rename_i e heqT
          subst hr
          have hT := (iht ts (.error e) heqT (by omega) hts).1
          refine ⟨?_, by intro n la ts' h; simp at h⟩
          intro h
          simp at h
          subst h
          exact hT rfl
        · rename_i n1 tn ts1 heqT
          obtain ⟨hts1, hlen1, hla1⟩ := (iht ts _ heqT (by omega) hts).2 n1 tn ts1 rfl
          have hts1' : ts1.2 ≠ some Err.outOfFuel := by rw [hts1]; exact hts
          split at hr
          · subst hr
            refine ⟨by intro h; simp at h, ?_⟩
            intro n la ts' h
            simp only [Except.ok.injEq, Prod.mk.injEq] at h
            obtain ⟨rfl, rfl, rfl⟩ := h
            exact ⟨hts1, by omega⟩
          · rename_i tv2
            have hL1 : ts1.1.length + 2 ≤ ts.1.length := hla1 (by simp)
            have hrec := ihel _ tv2 ts1 r hr (by omega) hts1'
            refine ⟨hrec.1, ?_⟩
            intro n la ts' h
            obtain ⟨h2, h3⟩ := hrec.2 n la ts' h
            exact ⟨by rw [h2, hts1], by omega⟩
      · -- SUB
        split at hr
        · rename_i e heqT
          subst hr
          have hT := (iht ts (.error e) heqT (by omega) hts).1
          refine ⟨?_, by intro n la ts' h; simp at h⟩
          intro h
          simp at h
          subst h
          exact hT rfl
        · rename_i n1 tn ts1 heqT
          obtain ⟨hts1, hlen1, hla1⟩ := (iht ts _ heqT (by omega) hts).2 n1 tn ts1 rfl
          have hts1' : ts1.2 ≠ some Err.outOfFuel := by rw [hts1]; exact hts
          split at hr
          · subst hr
            refine ⟨by intro h; simp at h, ?_⟩
            intro n la ts' h
            simp only [Except.ok.injEq, Prod.mk.injEq] at h
            obtain ⟨rfl, rfl, rfl⟩ := h
            exact ⟨hts1, by omega⟩
          · rename_i tv2
            have hL1 : ts1.1.length + 2 ≤ ts.1.length := hla1 (by simp)
            have hrec := ihel _ tv2 ts1 r hr (by omega) hts1'
            refine ⟨hrec.1, ?_⟩
            intro n la ts' h
            obtain ⟨h2, h3⟩ := hrec.2 n la ts' h
            exact ⟨by rw [h2, hts1], by omega⟩
      · subst hr
        refine ⟨by intro h; simp at h, ?_⟩
        intro n la ts' h
        simp only [Except.ok.injEq, Prod.mk.injEq] at h
        obtain ⟨rfl, rfl, rfl⟩ := h
        exact ⟨rfl, le_rfl⟩
    have he : ∀ ts r, parse_e (fuel + 1) ts = r → 4 * ts.1.length + 3 ≤ fuel + 1 →
        ts.2 ≠ some .outOfFuel →
        (r = .error .outOfFuel → False) ∧
        (∀ n la ts', r = .ok (n, la, ts') → ts'.2 = ts.2 ∧
          ts'.1.length + 1 ≤ ts.1.length ∧
          (la ≠ none → ts'.1.length + 2 ≤ ts.1.length)) := by
      intro ts r hr hfuel hts
      simp only [parse_e] at hr
      split at hr
      · rename_i e heqT
        subst hr
        have hT := (iht ts (.error e) heqT (by omega) hts).1
        refine ⟨?_, by intro n la ts' h; simp at h⟩
        intro h
        simp at h
        subst h
        exact hT rfl
      · rename_i n1 ts1 heqT
        obtain ⟨hts1, hlen1, -⟩ := (iht ts _ heqT (by omega) hts).2 n1 none ts1 rfl
        subst hr
        refine ⟨by intro h; simp at h, ?_⟩
        intro n la ts' h
        simp only [Except.ok.injEq, Prod.mk.injEq] at h
        obtain ⟨rfl, rfl, rfl⟩ := h
        exact ⟨hts1, by omega, by intro hcon; exact absurd rfl hcon⟩
      · rename_i x n1 tv ts1 heqT
        obtain ⟨hts1, hlen1, hla1⟩ := (iht ts _ heqT (by omega) hts).2 n1 (some tv) ts1 rfl
        have hts1' : ts1.2 ≠ some Err.outOfFuel := by rw [hts1]; exact hts
        have hL1 : ts1.1.length + 2 ≤ ts.1.length := hla1 (by simp)
        have hrec := ihel n1 tv ts1 r hr (by omega) hts1'
        refine ⟨hrec.1, ?_⟩
        intro n la ts' h
        obtain ⟨h2, h3⟩ := hrec.2 n la ts' h
        refine ⟨by rw [h2, hts1], by omega, by intro _; omega⟩
    exact ⟨hf, htl, ht, hel, he⟩

/-- The fuel chosen by `evaluate` is always sufficient: the `outOfFuel`
artefact of the embedding never surfaces, for any input. -/
theorem evaluate_no_fuel (input : List Char) : evaluate input ≠ .error .outOfFuel := by
  intro h
  simp only [evaluate] at h
  split at h
  · rename_i e heq
    simp only [Except.error.injEq] at h
    subst h
    exact ((parse_fuel_sufficient (parseFuel (tokensFrom input))).2.2.2.2
      (tokensFrom input) _ heq (by simp only [parseFuel]; omega)
      (tokensFrom_no_fuel input)).1 rfl
  · simp at h
  · simp at h

/-- The full pipeline never reports `outOfFuel` either. -/
theorem runFull_no_fuel (input : List Char) : runFull input ≠ .error .outOfFuel := by
  intro h
  simp only [runFull] at h
  split at h
  · rename_i e heq
    simp only [Except.error.injEq] at h
    subst h
    exact evaluate_no_fuel input heq
  · rename_i n heq
    split at h
    · rename_i e heval
      simp only [Except.error.injEq] at h
      subst h
      -- evalNode never produces outOfFuel
      clear heq
      induction n with
      | NumNode v => simp [evalNode] at heval
      | NegNode c ih =>
        simp only [evalNode, bind, Except.bind] at heval
        split at heval
        · rename_i e2 he2
          simp only [Except.error.injEq] at heval
          subst heval
          exact ih he2
        · simp [pure, Except.pure] at heval
      | ParNode c ih => exact ih heval
      | MulNode l r ihl ihr =>
        simp only [evalNode, bind, Except.bind] at heval
        split at heval
        · rename_i e2 he2
          simp only [Except.error.injEq] at heval
          subst heval
          exact ihl he2
        · rename_i a ha
          split at heval
          · rename_i e2 he2
            simp only [Except.error.injEq] at heval
            subst heval
            exact ihr he2
          · simp [pure, Except.pure] at heval
      | DivNode l r ihl ihr =>
        simp only [evalNode, bind, Except.bind] at heval
        split at heval
        · rename_i e2 he2
          simp only [Except.error.injEq] at heval
          subst heval
          exact ihl he2
        · rename_i a ha
          split at heval
          · rename_i e2 he2
            simp only [Except.error.injEq] at heval
            subst heval
            exact ihr he2
          · rename_i b hb
            split at heval
            · simp at heval
            · simp [pure, Except.pure] at heval
      | AddNode l r ihl ihr =>
        simp only [evalNode, bind, Except.bind] at heval
        split at heval
        · rename_i e2 he2
          simp only [Except.error.injEq] at heval
          subst heval
          exact ihl he2
        · rename_i a ha
          split at heval
          · rename_i e2 he2
            simp only [Except.error.injEq] at heval
            subst heval
            exact ihr he2
          · simp [pure, Except.pure] at heval
      | SubNode l r ihl ihr =>
        simp only [evalNode, bind, Except.bind] at heval
        split at heval
        · rename_i e2 he2
          simp only [Except.error.injEq] at heval
          subst heval
          exact ihl he2
        · rename_i a ha
          split at heval
          · rename_i e2 he2
            simp only [Except.error.injEq] at heval
            subst heval
            exact ihr he2
          · simp [pure, Except.pure] at heval
    · simp at h
